import Mathlib

/-!
Verification of the QuaC quantum-dynamics simulator core against its
specification.  The development shallowly embeds two parts of the code base:

* the Hamiltonian string parser (`src/xacc/Utils/Hamiltonian.cpp`): strings are
  modelled as `List Char`, doubles as `ℚ`, and every helper keeps the name of
  the C++ function it embeds;
* the PETSc solver driver (`src/src/solver.c`): sparse matrices are modelled as
  total functions `ℕ → ℕ → ℂ`, vectors as `ℕ → ℂ` or `Fin n → ℂ`, and the
  fragments of `steady_state` / `time_step` / the RHS callback relevant to the
  claims are embedded as state-passing functions.

Components that are not part of the sources (the exprtk scalar expression
engine, the operator enum of `Hamiltonian.hpp`, PETSc's `VecNormalize`, the
kron assembler of `kron_p.h`) are modelled from the specification; each such
definition carries a doc comment saying so.
-/

namespace QuaCV

/-! ## Character helpers (ASCII semantics of the C locale functions) -/

/-- Embeds the C `isspace` classification used by `removeWhiteSpaces`
(space, tab, newline, carriage return, vertical tab, form feed). -/
def isSpaceChar (c : Char) : Bool :=
  c.toNat = 32 || c.toNat = 9 || c.toNat = 10 || c.toNat = 13 ||
  c.toNat = 11 || c.toNat = 12

/-- Embeds C `isalpha` on ASCII input. -/
def isAlphaChar (c : Char) : Bool :=
  (97 ≤ c.toNat && c.toNat ≤ 122) || (65 ≤ c.toNat && c.toNat ≤ 90)

/-- Embeds C `isdigit` on ASCII input. -/
def isDigitChar (c : Char) : Bool :=
  48 ≤ c.toNat && c.toNat ≤ 57

/-- Embeds C `toupper` on ASCII input. -/
def asciiToUpper (c : Char) : Char :=
  if 97 ≤ c.toNat && c.toNat ≤ 122 then Char.ofNat (c.toNat - 32) else c

/-- Embeds the anonymous-namespace helper `removeWhiteSpaces`. -/
def removeWhiteSpaces (s : List Char) : List Char :=
  s.filter (fun c => !isSpaceChar c)

/-- Embeds the anonymous-namespace helper `toUpperCase`. -/
def toUpperCase (s : List Char) : List Char :=
  s.map asciiToUpper

/-- Embeds the anonymous-namespace helper `isNumberString`; note that the C++
version (a `find_if` returning `end`) accepts the empty string. -/
def isNumberString (s : List Char) : Bool :=
  s.all isDigitChar

/-- Embeds `std::stoi` on an all-digit string. -/
def stoiNat (s : List Char) : ℕ :=
  s.foldl (fun a c => a * 10 + (c.toNat - 48)) 0

/-! ## List search helpers mirroring `std::string` operations -/

/-- Embeds `std::string::find` for a pattern: index of the first occurrence. -/
def findSublist (pat : List Char) : List Char → Option ℕ
  | [] => if pat = [] then some 0 else none
  | c :: rest =>
      if pat.isPrefixOf (c :: rest) then some 0
      else (findSublist pat rest).map (· + 1)

/-- Index of the first character satisfying a predicate (the `find_if` and
`find_first_of` idioms of the sources). -/
def findIdxQ (p : Char → Bool) : List Char → Option ℕ
  | [] => none
  | c :: rest => if p c then some 0 else (findIdxQ p rest).map (· + 1)

/-- Embeds `std::string::find_last_of` for a single character. -/
def findLastOf (c : Char) : List Char → Option ℕ
  | [] => none
  | a :: rest =>
      match findLastOf c rest with
      | some k => some (k + 1)
      | none => if a = c then some 0 else none

/-- Produces the digit character for a value below ten. -/
def digitChar (n : ℕ) : Char := Char.ofNat (48 + n)

/-- Decimal digits of a natural number, fuelled variant of `std::to_string`. -/
def natToChars : ℕ → ℕ → List Char
  | 0, _ => []
  | f + 1, n =>
      if n < 10 then [digitChar n]
      else natToChars f (n / 10) ++ [digitChar (n % 10)]

/-- Embeds `std::to_string` on `int`. -/
def intToChars (z : ℤ) : List Char :=
  if z < 0 then '-' :: natToChars (z.natAbs + 1) z.natAbs else natToChars (z.toNat + 1) z.toNat

/-! ## The scalar expression engine

Modelled from the spec: the sources call the external exprtk library through
`xacc::ExpressionParsingUtil` ("evaluated with a scalar expression engine",
"numeric coefficients are resolved against a variable environment").  We embed
the fragment of that engine the Hamiltonian strings use: decimal literals,
named variables, unary sign, parenthesised sub-expressions, products, sums and
differences.  An expression mentioning a symbol outside the variable
environment is invalid, as is the empty string.  Values are `ℚ` (the spec's
real scalars). -/

/-- Variable environment (the `vars` JSON object), name to value. -/
abbrev VarsMap := List (List Char × ℚ)

/-- Parses a decimal literal such as `0.5`, `1.0` or `3`. -/
def parseNumber (s : List Char) : Option (ℚ × List Char) :=
  let d1 := s.takeWhile isDigitChar
  let r1 := s.dropWhile isDigitChar
  match r1 with
  | '.' :: r2 =>
      let d2 := r2.takeWhile isDigitChar
      if d1.isEmpty && d2.isEmpty then none
      else some ((stoiNat d1 : ℚ) + (stoiNat d2 : ℚ) / ((10 : ℚ) ^ d2.length),
                 r2.dropWhile isDigitChar)
  | _ => if d1.isEmpty then none else some ((stoiNat d1 : ℚ), r1)

/-- Predicate for identifier-continuation characters. -/
def isIdentChar (c : Char) : Bool :=
  isAlphaChar c || isDigitChar c || c = '_'

/-- Parses an identifier (a variable name). -/
def parseIdentName (s : List Char) : Option (List Char × List Char) :=
  match s with
  | [] => none
  | c :: _ =>
      if isAlphaChar c || c = '_' then
        some (s.takeWhile isIdentChar, s.dropWhile isIdentChar)
      else none

/-- Parses an atom: a numeric literal or a variable bound in the environment. -/
def parseAtom (vars : VarsMap) (s : List Char) : Option (ℚ × List Char) :=
  match parseNumber s with
  | some r => some r
  | none =>
      match parseIdentName s with
      | none => none
      | some (name, rest) =>
          match vars.lookup name with
          | none => none
          | some v => some (v, rest)

mutual

/-- Additive level of the modelled expression grammar. -/
def parseE (vars : VarsMap) : ℕ → List Char → Option (ℚ × List Char)
  | 0, _ => none
  | f + 1, s =>
      match parseT vars f s with
      | none => none
      | some (v, r) => parseERest vars f v r

/-- Continuation of the additive level: a chain of plus/minus terms. -/
def parseERest (vars : VarsMap) : ℕ → ℚ → List Char → Option (ℚ × List Char)
  | 0, _, _ => none
  | f + 1, acc, s =>
      match s with
      | '+' :: r =>
          (match parseT vars f r with
           | none => none
           | some (v, r2) => parseERest vars f (acc + v) r2)
      | '-' :: r =>
          (match parseT vars f r with
           | none => none
           | some (v, r2) => parseERest vars f (acc - v) r2)
      | _ => some (acc, s)

/-- Multiplicative level of the modelled expression grammar. -/
def parseT (vars : VarsMap) : ℕ → List Char → Option (ℚ × List Char)
  | 0, _ => none
  | f + 1, s =>
      match parseF vars f s with
      | none => none
      | some (v, r) => parseTRest vars f v r

/-- Continuation of the multiplicative level: a chain of factors. -/
def parseTRest (vars : VarsMap) : ℕ → ℚ → List Char → Option (ℚ × List Char)
  | 0, _, _ => none
  | f + 1, acc, s =>
      match s with
      | '*' :: r =>
          (match parseF vars f r with
           | none => none
           | some (v, r2) => parseTRest vars f (acc * v) r2)
      | _ => some (acc, s)

/-- Factor: unary sign, parenthesised expression, or atom. -/
def parseF (vars : VarsMap) : ℕ → List Char → Option (ℚ × List Char)
  | 0, _ => none
  | f + 1, s =>
      match s with
      | '-' :: r =>
          (match parseF vars f r with
           | none => none
           | some (v, r2) => some (-v, r2))
      | '+' :: r => parseF vars f r
      | '(' :: r =>
          (match parseE vars f r with
           | some (v, ')' :: r2) => some (v, r2)
           | _ => none)
      | _ => parseAtom vars s

end

/-- Modelled from the spec: the anonymous-namespace helper
`TryEvaluateExpression`, which asks the scalar expression engine whether the
string is a valid expression over the environment and evaluates it. -/
def TryEvaluateExpression (s : List Char) (vars : VarsMap) : Option ℚ :=
  match parseE vars (4 * s.length + 8) s with
  | some (v, []) => some v
  | _ => none

/-! ## Operators and `GetLastOperator` -/

/-- Modelled from the spec: the operator enum declared in `Hamiltonian.hpp`
(not under `src/`); the spec lists the single-site symbolic operators
`I, X, Y, Z, SP, SM, N, a, a-dagger` and the interface header documents the
textual names `X, Y, Z, I, SP, SM`.  `NA` is the not-an-operator marker the
parser compares against. -/
inductive Operator
  | I | X | Y | Z | SP | SM | Nop | A | AD | NA
deriving DecidableEq, Repr

/-- Modelled from the spec: `ConvertOperatorFromString` of `Hamiltonian.hpp`
(not under `src/`); maps an upper-cased operator name to the enum, `NA` for an
unknown symbol. -/
def ConvertOperatorFromString (s : List Char) : Operator :=
  if s = ("I").toList then .I
  else if s = ("X").toList then .X
  else if s = ("Y").toList then .Y
  else if s = ("Z").toList then .Z
  else if s = ("SP").toList then .SP
  else if s = ("SM").toList then .SM
  else if s = ("N").toList then .Nop
  else if s = ("A").toList then .A
  else if s = ("AD").toList then .AD
  else .NA

/-- A site-bound operator, the `QubitOp` pair of the sources. -/
abbrev QubitOp := Operator × ℕ

/-- Embeds the anonymous-namespace helper `GetLastOperator`: splits the final
`*`-separated factor of the string into an operator name and a qubit index,
returning the operator pair together with the string before the last `*`. -/
def GetLastOperator (s : List Char) : Option (QubitOp × List Char) :=
  match findLastOf '*' s with
  | none => none
  | some pos =>
      let opName := toUpperCase (s.drop (pos + 1))
      match findIdxQ (fun ch => !isAlphaChar ch) opName with
      | none => none
      | some k =>
          let opStr := opName.take k
          if opStr.length < 1 then none
          else if ConvertOperatorFromString opStr = Operator.NA then none
          else
            let qubitIdxStr := opName.drop k
            if !isNumberString qubitIdxStr then none
            else some ((ConvertOperatorFromString opStr, stoiNat qubitIdxStr), s.take pos)

/-- Embeds the `while (GetLastOperator(tempStr, tempOp, remainderStr))` loop of
the two `fromString` parsers.  `acc` is the operator list built by
`emplace_back` (most recently peeled first is last), `rem` the C++
`remainderStr`, which is only written on success and starts out as the empty
string. -/
def peelOps : ℕ → List Char → List QubitOp → List Char → List QubitOp × List Char
  | 0, _, acc, rem => (acc, rem)
  | f + 1, s, acc, rem =>
      match GetLastOperator s with
      | none => (acc, rem)
      | some (op, rest) => peelOps f rest (acc ++ [op]) rest

/-- Runs the peeling loop on a whole operator expression, starting from the
default-constructed empty `remainderStr`. -/
def opsRem (s : List Char) : List QubitOp × List Char :=
  peelOps (s.length + 1) s [] []

/-! ## `UnwrapOpExpresion` and the term parsers -/

/-- Embeds the anonymous-namespace helper `UnwrapOpExpresion`: rewrites
`blah*(A pm B)` into the two strings `blah*A` and `(pm 1.0)*blah*B`, returning
the empty list on any of the failure conditions (no closing parenthesis pair,
nested parentheses inside, no plus/minus). -/
def UnwrapOpExpresion (s : List Char) : List (List Char) :=
  if s.getLast? ≠ some ')' then []
  else
    match findLastOf '(' s with
    | none => []
    | some pos =>
        let coeffExpr := s.take pos
        let wrappedExpr := (s.drop (pos + 1)).dropLast
        if (findIdxQ (fun ch => ch = '(') wrappedExpr).isSome ||
           (findIdxQ (fun ch => ch = ')') wrappedExpr).isSome then []
        else
          let pmPos :=
            match findIdxQ (fun ch => ch = '+') wrappedExpr with
            | some k => some k
            | none => findIdxQ (fun ch => ch = '-') wrappedExpr
          match pmPos with
          | none => []
          | some k =>
              let expr1 := wrappedExpr.take k
              let expr2 := wrappedExpr.drop (k + 1)
              let signChar := (wrappedExpr.get? k).getD ' '
              let signExpr := '(' :: signChar :: ("1.0)*").toList
              [coeffExpr ++ expr1, signExpr ++ coeffExpr ++ expr2]

/-- Term tree produced by the parser: the `HamiltonianTerm` class hierarchy of
`Hamiltonian.hpp` (`TimeIndependent`, `TimeDependent`, `Sum`).  The
time-independent coefficient is a complex number built from a real evaluation
result, hence a single `ℚ` here; the time-dependent coefficient is a `double`.
-/
inductive HamiltonianTerm
  | timeIndependent (coeff : ℚ) (ops : List QubitOp)
  | timeDependent (channel : List Char) (coeff : ℚ) (ops : List QubitOp)
  | sum (terms : List HamiltonianTerm)

/-- Channel-name validity test of `HamiltonianTimeDependentTerm::fromString`
(length at least two, leading `D` or `U`, numeric remainder). -/
def channelNameOk (ch : List Char) : Bool :=
  match ch with
  | c1 :: c2 :: rest => (c1 = 'D' || c1 = 'U') && isNumberString (c2 :: rest)
  | _ => false

/-- The two-character channel separator `||`. -/
def sepBar : List Char := ['|', '|']

/-- Embeds `HamiltonianTimeDependentTerm::fromString`.  The fuel bounds the
recursion depth through `UnwrapOpExpresion`; every input reachable from the
claims recurses at most once and the wrapper `timeDepParse` supplies ample
fuel. -/
def HamTimeDepFS (vars : VarsMap) : ℕ → List Char → Option HamiltonianTerm
  | 0, _ => none
  | f + 1, s =>
      let exprStr := removeWhiteSpaces s
      match findSublist sepBar exprStr with
      | none => none
      | some sep =>
          let channelName := toUpperCase (exprStr.drop (sep + 2))
          if !channelNameOk channelName then none
          else
            let operatorExpression := exprStr.take sep
            if operatorExpression.getLast? = some ')' then
              match UnwrapOpExpresion operatorExpression with
              | [e1, e2] =>
                  (match HamTimeDepFS vars f (e1 ++ exprStr.drop sep),
                         HamTimeDepFS vars f (e2 ++ exprStr.drop sep) with
                   | some t1, some t2 => some (.sum [t1, t2])
                   | _, _ => none)
              | _ => none
            else
              let pr := opsRem operatorExpression
              match TryEvaluateExpression pr.2 vars with
              | none => none
              | some v => some (.timeDependent channelName v pr.1.reverse)

/-- Embeds `HamiltonianTimeIndependentTerm::fromString`. -/
def HamTimeIndFS (vars : VarsMap) : ℕ → List Char → Option HamiltonianTerm
  | 0, _ => none
  | f + 1, s =>
      let exprStr := removeWhiteSpaces s
      match findSublist sepBar exprStr with
      | some _ => none
      | none =>
          if exprStr.getLast? = some ')' then
            match UnwrapOpExpresion exprStr with
            | [e1, e2] =>
                (match HamTimeIndFS vars f e1, HamTimeIndFS vars f e2 with
                 | some t1, some t2 => some (.sum [t1, t2])
                 | _, _ => none)
            | _ => none
          else
            let pr := opsRem exprStr
            match TryEvaluateExpression pr.2 vars with
            | none => none
            | some v => some (.timeIndependent v pr.1.reverse)

/-- Wrapper supplying the fuel for `HamTimeDepFS`. -/
def timeDepParse (s : List Char) (vars : VarsMap) : Option HamiltonianTerm :=
  HamTimeDepFS vars (s.length + 1) s

/-- Wrapper supplying the fuel for `HamTimeIndFS`. -/
def timeIndParse (s : List Char) (vars : VarsMap) : Option HamiltonianTerm :=
  HamTimeIndFS vars (s.length + 1) s

/-! ## The `_SUM` loop parser -/

/-- Embeds the regex scan `(\x7b.*?\x7d)` of `resolveLoopTemplate`: the list of
leftmost non-greedy brace-group matches, in order. -/
def findBraceGroups : ℕ → List Char → List (List Char)
  | 0, _ => []
  | _ + 1, [] => []
  | f + 1, '{' :: rest =>
      (match findIdxQ (fun ch => ch = '}') rest with
       | some k => ('{' :: rest.take (k + 1)) :: findBraceGroups f (rest.drop (k + 1))
       | none => [])
  | f + 1, _ :: rest => findBraceGroups f rest

/-- Keeps the first occurrence of each element, modelling the key set of the
C++ `unordered_map` (whose iteration order is unspecified; we fix match
order). -/
def dedupFirst (l : List (List Char)) : List (List Char) :=
  l.foldl (fun acc g => if g ∈ acc then acc else acc ++ [g]) []

/-- Embeds the C cast `(int)evalResult`: truncation toward zero. -/
def truncToInt (q : ℚ) : ℤ :=
  if 0 ≤ q then ⌊q⌋ else ⌈q⌉

/-- Embeds the `replaceTemplateWithValue` lambda: replace every (left-to-right,
non-overlapping) occurrence of `pat` by `rep`, continuing after the
replacement. -/
def replaceAll : ℕ → List Char → List Char → List Char → List Char
  | 0, s, _, _ => s
  | f + 1, s, pat, rep =>
      match findSublist pat s with
      | none => s
      | some i => s.take i ++ rep ++ replaceAll f (s.drop (i + pat.length)) pat rep

/-- Embeds the `resolveLoopTemplate` lambda of `HamiltonianSumTerm::fromString`:
collect the brace groups, map the bare loop-variable template to the loop
value, evaluate every other group with the scalar engine over the singleton
environment (defaulting to 0 on failure, as the C++ leaves the map entry at
its initial value), then textually substitute each group by its value. -/
def resolveLoopTemplate (loopExpr loopVarName : List Char) (v : ℤ) : List Char :=
  let varFmt := '{' :: (loopVarName ++ ['}'])
  let groups := dedupFirst (findBraceGroups loopExpr.length loopExpr)
  let pairs : List (List Char × ℤ) := groups.map (fun g =>
    if g = varFmt then (g, v)
    else
      match TryEvaluateExpression ((g.drop 1).dropLast) [(loopVarName, (v : ℚ))] with
      | some r => (g, truncToInt r)
      | none => (g, 0))
  pairs.foldl (fun s p => replaceAll (s.length + 1) s p.1 (intToChars p.2)) loopExpr

/-- Embeds `GetNextCommaSeparatedSubString`: the substring before the first
comma and the rest after it; on a comma-free string the C++ returns the empty
string and leaves the input untouched. -/
def nextComma (s : List Char) : List Char × List Char :=
  match findSublist [','] s with
  | none => ([], s)
  | some k => (s.take k, s.drop (k + 1))

/-- Turns a list of optional child parses into an optional list; `none`
models the `assert(result != nullptr)` abort of the loop-unrolling code. -/
def optionSequence {α : Type} : List (Option α) → Option (List α)
  | [] => some []
  | none :: _ => none
  | some a :: rest => (optionSequence rest).map (a :: ·)

/-- Embeds `HamiltonianSumTerm::fromString`: recognises
`_SUM[var,start,end,expr]`, validates the header fields, requires the bare
loop-variable template to occur in the body, rejects `start > end`, determines
the child kind from trial parses at the start value, and unrolls the inclusive
loop. -/
def sumParse (s : List Char) (vars : VarsMap) : Option HamiltonianTerm :=
  let exprStr := removeWhiteSpaces s
  if !(("_SUM[").toList.isPrefixOf exprStr) then none
  else if exprStr.getLast? ≠ some ']' then none
  else
    let body := (exprStr.drop 5).dropLast
    let p1 := nextComma body
    let loopVarName := p1.1
    let p2 := nextComma p1.2
    let startValStr := p2.1
    let p3 := nextComma p2.2
    let endValStr := p3.1
    let loopExpression := p3.2
    let varFmt := '{' :: (loopVarName ++ ['}'])
    if loopVarName.isEmpty || startValStr.isEmpty || endValStr.isEmpty ||
       loopExpression.isEmpty ||
       !isNumberString startValStr || !isNumberString endValStr ||
       (findSublist varFmt loopExpression).isNone then none
    else
      let a := stoiNat startValStr
      let b := stoiNat endValStr
      if b < a then none
      else
        let r0 := resolveLoopTemplate loopExpression loopVarName (a : ℤ)
        let td0 := timeDepParse r0 vars
        let ti0 := timeIndParse r0 vars
        if td0.isNone && ti0.isNone then none
        else
          let kids := (List.range' a (b + 1 - a)).map (fun (v : ℕ) =>
            let rv := resolveLoopTemplate loopExpression loopVarName (v : ℤ)
            if td0.isSome then timeDepParse rv vars else timeIndParse rv vars)
          match optionSequence kids with
          | some ts => some (.sum ts)
          | none => none

/-- Embeds the single-string `HamiltonianParsingUtil::tryParse`: try the sum
parser, then the time-dependent parser, then the time-independent parser. -/
def tryParseString (s : List Char) (vars : VarsMap) : Option HamiltonianTerm :=
  match sumParse s vars with
  | some t => some t
  | none =>
      match timeDepParse s vars with
      | some t => some t
      | none => timeIndParse s vars

/-- Embeds the JSON-level `HamiltonianParsingUtil::tryParse` after JSON
decoding (the nlohmann library is an external collaborator): walk the `h_str`
array in order, hand each successfully parsed term to the consumer, and stop
with failure at the first unparseable entry.  The second component collects
the terms handed to `in_forEachTermFn`, in order. -/
def tryParseJson : List (List Char) → VarsMap → Bool × List HamiltonianTerm
  | [], _ => (true, [])
  | h :: rest, vars =>
      match tryParseString h vars with
      | none => (false, [])
      | some t =>
          let pr := tryParseJson rest vars
          (pr.1, t :: pr.2)

/-! ## Solver model (`src/src/solver.c`)

Sparse matrices are embedded as total functions `ℕ → ℕ → ℂ` (entries outside
the logical dimension are zero for every matrix the code builds), vectors as
`ℕ → ℂ`.  `MatSetValue(..., ADD_VALUES)` is pointwise addition at one entry.
-/

/-- Matrix as an entry function. -/
abbrev CMat := ℕ → ℕ → ℂ

/-- Vector as an entry function. -/
abbrev CVec := ℕ → ℂ

/-- Embeds `MatSetValue(M,r,c,v,ADD_VALUES)`. -/
def matAddValue (M : CMat) (r c : ℕ) (v : ℂ) : CMat :=
  fun i j => if i = r ∧ j = c then M i j + v else M i j

/-- Embeds `VecSet(x,v)`. -/
def vecSet (v : ℂ) : CVec := fun _ => v

/-- Embeds `VecSetValue(x,i,v,INSERT_VALUES)`. -/
def vecSetValue (x : CVec) (i : ℕ) (v : ℂ) : CVec :=
  fun k => if k = i then v else x k

/-- Size-bounded identity matrix (Kronecker factor `I_n`). -/
def idm (n : ℕ) : CMat := fun i j => if i = j ∧ i < n then 1 else 0

/-- Kronecker product of entry functions, given the dimension of the right
factor: `(A ⊗ B) (i, j) = A (i / dB, j / dB) * B (i % dB, j % dB)`. -/
def kron (A B : CMat) (dB : ℕ) : CMat :=
  fun i j => A (i / dB) (j / dB) * B (i % dB) (j % dB)

/-- A single-site operator as the kron assembler sees it: the data of the C
`operator` struct (`n_before`, `my_levels`, the local matrix resolved from
`my_op_type` and `position`) plus the derived trailing identity size
`n_after`. -/
structure QOp where
  n_before : ℕ
  my_levels : ℕ
  n_after : ℕ
  mat : CMat

/-- Modelled from the spec: `_add_to_PETSc_kron` of `kron_p.h` (not under
`src/`).  Per spec section 4.1 it adds
`c * (I_pre kron I_n_before kron O kron I_n_after kron I_post)` to the target
matrix, where `(pre, post)` are the two outer factors used for the Liouville
embedding. -/
def add_to_PETSc_kron (M : CMat) (c : ℂ) (op : QOp) (pre post : ℕ) : CMat :=
  let inner := kron (idm op.n_before) (kron op.mat (idm op.n_after) op.n_after)
      (op.my_levels * op.n_after)
  let full := kron (idm pre) (kron inner (idm post) post)
      (op.n_before * op.my_levels * op.n_after * post)
  fun r c2 => M r c2 + c * full r c2

/-- One entry of `_time_dep_list`: the drive coefficient function and the
operator list of the time-dependent term. -/
structure TimeDepTermC where
  time_dep_func : ℝ → ℝ
  ops : List QOp

/-- Embeds the RHS/Jacobian callback `_RHS_time_dep_ham` of `solver.c`:
`MatZeroEntries(BB)` followed by `MatCopy(full_A, BB, SAME_NONZERO_PATTERN)`
leaves the values of `full_A`; then for every time-dependent term `i` and each
of its operators the code adds `-i*f_i(t)*(I kron O)` (outer factors
`(total_levels, 1)`) and `+i*f_i(t)*(O kron I)` (outer factors
`(1, total_levels)`), unconditionally in both solver modes. -/
def RHS_time_dep_ham (full_A : CMat) (total_levels : ℕ)
    (tds : List TimeDepTermC) (t : ℝ) : CMat :=
  tds.foldl (fun BB td =>
    td.ops.foldl (fun BB2 op =>
      let v := td.time_dep_func t
      add_to_PETSc_kron
        (add_to_PETSc_kron BB2 (-(v : ℂ) * Complex.I) op total_levels 1)
        ((v : ℂ) * Complex.I) op 1 total_levels) BB) full_A

/-- The RHS rebuild described by the claim (and by spec section 4.5): copy
`full_A` and add both Liouville kron terms when in Liouville mode, copy
`ham_A` and add only `-i*f_i(t)*O` when in Schroedinger mode.  This is the
refinement target the callback is compared against; it is written from the
claim's words, not from the source. -/
def RHS_claimed (lindblad : Bool) (full_A ham_A : CMat) (total_levels : ℕ)
    (tds : List TimeDepTermC) (t : ℝ) : CMat :=
  if lindblad then
    tds.foldl (fun BB td =>
      td.ops.foldl (fun BB2 op =>
        let v := td.time_dep_func t
        add_to_PETSc_kron
          (add_to_PETSc_kron BB2 (-(v : ℂ) * Complex.I) op total_levels 1)
          ((v : ℂ) * Complex.I) op 1 total_levels) BB) full_A
  else
    tds.foldl (fun BB td =>
      td.ops.foldl (fun BB2 op =>
        let v := td.time_dep_func t
        add_to_PETSc_kron BB2 (-(v : ℂ) * Complex.I) op 1 1) BB) ham_A

/-- The file-local solver state of `solver.c` relevant to stabilization:
`full_A` and the one-bit flag `stab_added`. -/
structure SolverGlobals where
  full_A : CMat
  stab_added : Bool

/-- Adds `sign` at row 0, column `i*(D+1)` for every `i < D` (the
stabilization loop shared by `steady_state` and `time_step`). -/
def addStabRow (D : ℕ) (sign : ℂ) (M : CMat) : CMat :=
  (List.range D).foldl (fun A i => matAddValue A 0 (i * (D + 1)) sign) M

/-- Adds `0.0` to every diagonal entry of the first `n` rows (the
pattern-fixing loop; a value-level no-op). -/
def addZeroDiag (n : ℕ) (M : CMat) : CMat :=
  (List.range n).foldl (fun A i => matAddValue A i i 0) M

/-- Krylov solver type selected by `steady_state`. -/
inductive KSPKind | gmres
deriving DecidableEq

/-- Preconditioner type selected by `steady_state`. -/
inductive PCKind | asm
deriving DecidableEq

/-- The linear-solver configuration `steady_state` installs. -/
structure SteadyConfig where
  rtol : ℚ
  restart : ℕ
  ksp : KSPKind
  pc : PCKind
deriving DecidableEq

/-- Embeds the stabilization/assembly/solver-setup part of `steady_state`: if
the flag is clear, add `+1.0` at row 0 of `full_A` at every column `i*(D+1)`
and set the flag; add `0.0` to the `D*D` diagonal entries; build `b` as the
all-zero vector with `b[0] = 1`; configure GMRES with restart
`default_restart = 100`, an additive Schwarz preconditioner (`PCASM`) and
relative tolerance `default_rtol = 1e-11`. -/
def steady_state_model (D : ℕ) (s : SolverGlobals) :
    SolverGlobals × CVec × SteadyConfig :=
  let s1 := if s.stab_added then s else ⟨addStabRow D 1 s.full_A, true⟩
  let s2 : SolverGlobals := ⟨addZeroDiag (D * D) s1.full_A, s1.stab_added⟩
  let b := vecSetValue (vecSet 0) 0 1
  (s2, b, ⟨1 / 10 ^ 11, 100, .gmres, .asm⟩)

/-- The flags `time_step` consults before integrating. -/
structure TimeStepFlags where
  lindblad : Bool
  stiff : Bool
  num_time_dep : ℕ
  num_quantum_gates : ℕ

/-- An event handler registered with `TSSetEventHandler`. -/
inductive RegisteredEvent
  | gateEvent (direction : ℤ) (terminate : Bool)
  | normalizeEvent (direction : ℤ) (terminate : Bool)
deriving DecidableEq

/-- Embeds the prologue of `time_step` (`solver.c`): the mode guards that
`exit(0)` on the stiff solver combined with Lindblad terms or with
time-dependent terms (`none` models the abort), the removal loop that adds
`-1.0` at the stabilization positions whenever `stab_added` is set (the
source never clears the flag), the diagonal zero loop, and the event-handler
registrations.  Returns the state handed to `TSSolve` together with the list
of registered events. -/
def time_step_model (fl : TimeStepFlags) (D : ℕ) (s : SolverGlobals) :
    Option (SolverGlobals × List RegisteredEvent) :=
  if fl.lindblad then
    if fl.stiff then none
    else
      let s1 := if s.stab_added then
          { s with full_A := addStabRow D (-1) s.full_A } else s
      let s2 : SolverGlobals := ⟨addZeroDiag (D * D) s1.full_A, s1.stab_added⟩
      let events := (if 0 < fl.num_quantum_gates then
          [RegisteredEvent.gateEvent (-1) false] else []) ++
          [RegisteredEvent.normalizeEvent 0 false]
      some (s2, events)
  else
    if fl.num_time_dep ≠ 0 ∧ fl.stiff then none
    else
      let s1 := if s.stab_added then
          { s with full_A := addStabRow D (-1) s.full_A } else s
      let s2 : SolverGlobals := ⟨addZeroDiag (D * D) s1.full_A, s1.stab_added⟩
      let events := (if 0 < fl.num_quantum_gates then
          [RegisteredEvent.gateEvent (-1) false] else [])
      some (s2, events)

/-- Embeds `_Normalize_EventFunction`: the trigger value is `0` for every time
and every state vector, which the integrator treats as an immediate trigger.
-/
def Normalize_EventFunction (_t : ℝ) (_U : CVec) : ℂ := 0

/-- Euclidean norm of a finite complex vector. -/
noncomputable def l2norm {n : ℕ} (U : Fin n → ℂ) : ℝ :=
  Real.sqrt (∑ i, Complex.normSq (U i))

/-- Modelled from the spec: `_Normalize_PostEventFunction` calls the LAK's
`VecNormalize` ("L2-normalize state; re-seat into solver") and re-seats the
result with `TSSetSolution`; the returned vector is the new solver state.  A
zero vector is left untouched, as the LAK's normalize does nothing at zero
norm. -/
noncomputable def Normalize_PostEventFunction {n : ℕ} (U : Fin n → ℂ) : Fin n → ℂ :=
  if l2norm U = 0 then U else fun i => U i / (l2norm U : ℂ)

/-! ## Concrete instances used by the evaluation theorems -/

/-- The all-zero matrix. -/
def zeroCMat : CMat := fun _ _ => 0

/-- Pauli X on a two-level site. -/
def sigmaX : CMat := fun i j => if (i = 0 ∧ j = 1) ∨ (i = 1 ∧ j = 0) then 1 else 0

/-- The operator X at site 0 of a single qubit (`n_before = 1`,
`my_levels = 2`, `n_after = 1`). -/
def opX0 : QOp := ⟨1, 2, 1, sigmaX⟩

/-- A time-dependent term with constant unit drive on X at site 0. -/
def tdX : TimeDepTermC := ⟨fun _ => 1, [opX0]⟩

/-- Flags for a Lindblad-mode, non-stiff run with no gates and no
time-dependent terms. -/
def lbFlags : TimeStepFlags := ⟨true, false, 0, 0⟩

/-- Evaluation of a coefficient remainder as a pure product term (no
top-level sum or difference): the multiplicative level of the modelled scalar
engine, required to consume the entire string. -/
def evalAsTerm (s : List Char) (vars : VarsMap) : Option ℚ :=
  match parseT vars (4 * s.length + 8) s with
  | some (v, []) => some v
  | _ => none

/-- Wellformedness of a channel suffix as the claims use it: a literal `D` or
`U` followed by at least one digit. -/
def goodChannel (ch : List Char) : Prop :=
  ∃ d ds, ch = d :: ds ∧ (d = 'D' ∨ d = 'U') ∧ ds ≠ [] ∧ isNumberString ds = true

/-- The bare loop-variable template for a loop variable name. -/
def varFmtOf (iName : List Char) : List Char := '{' :: (iName ++ ['}'])

/-- Whitespace-freeness of a string (the `removeWhiteSpaces` fixed points). -/
def noWS (s : List Char) : Prop := ∀ c ∈ s, isSpaceChar c = false

instance : DecidablePred noWS :=
  fun s => decidable_of_iff (∀ c ∈ s, isSpaceChar c = false) Iff.rfl

/-- A syntactically explicit `_SUM` input built from its four fields. -/
def sumInput (i a b e : List Char) : List Char :=
  ("_SUM[").toList ++ i ++ [','] ++ a ++ [','] ++ b ++ [','] ++ e ++ [']']

/-- The part of `HamiltonianSumTerm::fromString` after the header has been
split into its four fields: the bare-template check, the bound check, the
kind-determining trial parses and the loop unrolling. -/
def sumTail (iName aStr bStr expr : List Char) (vars : VarsMap) :
    Option HamiltonianTerm :=
  if (findSublist (varFmtOf iName) expr).isNone then none
  else
    let a := stoiNat aStr
    let b := stoiNat bStr
    if b < a then none
    else
      let r0 := resolveLoopTemplate expr iName (a : ℤ)
      let td0 := timeDepParse r0 vars
      let ti0 := timeIndParse r0 vars
      if td0.isNone && ti0.isNone then none
      else
        let kids := (List.range' a (b + 1 - a)).map (fun (v : ℕ) =>
          let rv := resolveLoopTemplate expr iName (v : ℤ)
          if td0.isSome then timeDepParse rv vars else timeIndParse rv vars)
        match optionSequence kids with
        | some ts => some (.sum ts)
        | none => none

/-! ## Character-class lemmas -/

theorem isDigit_toNat {c : Char} (h : isDigitChar c = true) :
    48 ≤ c.toNat ∧ c.toNat ≤ 57 := by
  simpa [isDigitChar] using h

theorem digit_ne_of {c x : Char} (h : isDigitChar c = true)
    (hx : isDigitChar x = false) : c ≠ x := by
  intro hEq
  subst hEq
  simp [h] at hx

theorem digit_not_space {c : Char} (h : isDigitChar c = true) :
    isSpaceChar c = false := by
  obtain ⟨h1, h2⟩ := isDigit_toNat h
  simp only [isSpaceChar, Bool.or_eq_false_iff, decide_eq_false_iff_not]
  omega

theorem digit_not_alpha {c : Char} (h : isDigitChar c = true) :
    isAlphaChar c = false := by
  obtain ⟨h1, h2⟩ := isDigit_toNat h
  simp only [isAlphaChar, Bool.or_eq_false_iff, Bool.and_eq_false_iff,
    decide_eq_false_iff_not]
  omega

theorem digit_upper_fix {c : Char} (h : isDigitChar c = true) :
    asciiToUpper c = c := by
  obtain ⟨h1, h2⟩ := isDigit_toNat h
  have : (97 ≤ c.toNat && c.toNat ≤ 122) = false := by
    simp only [Bool.and_eq_false_iff, decide_eq_false_iff_not]
    omega
  simp [asciiToUpper, this]

theorem numStr_mem {s : List Char} (h : isNumberString s = true) {c : Char}
    (hc : c ∈ s) : isDigitChar c = true := by
  have := List.all_eq_true.mp h
  simpa using this c hc

/-! ## Whitespace-removal lemmas -/

theorem removeWS_id {s : List Char} (h : noWS s) : removeWhiteSpaces s = s := by
  unfold removeWhiteSpaces
  apply List.filter_eq_self.mpr
  intro c hc
  simp [h c hc]

theorem noWS_append {s t : List Char} : noWS (s ++ t) ↔ noWS s ∧ noWS t := by
  constructor
  · intro h
    exact ⟨fun c hc => h c (List.mem_append.mpr (Or.inl hc)),
           fun c hc => h c (List.mem_append.mpr (Or.inr hc))⟩
  · rintro ⟨h1, h2⟩ c hc
    rcases List.mem_append.mp hc with h | h
    · exact h1 c h
    · exact h2 c h

theorem noWS_cons {c : Char} {t : List Char} :
    noWS (c :: t) ↔ isSpaceChar c = false ∧ noWS t := by
  simp [noWS]

theorem noWS_of_digits {s : List Char} (h : isNumberString s = true) : noWS s :=
  fun c hc => digit_not_space (numStr_mem h hc)

/-! ## `isPrefixOf`, `findSublist`, `findLastOf`, `findIdx?` lemmas -/

theorem isPrefixOf_app (p l : List Char) : p.isPrefixOf (p ++ l) = true := by
  induction p with
  | nil => simp [List.isPrefixOf]
  | cons a as ih => simp [List.isPrefixOf, ih]

theorem isPrefixOf_cons_false {p₀ c : Char} {pr s : List Char} (h : c ≠ p₀) :
    (p₀ :: pr).isPrefixOf (c :: s) = false := by
  simp [List.isPrefixOf, Ne.symm h]

theorem findSublist_append_pos {p₀ : Char} {pr : List Char} (xs tail : List Char)
    (hxs : ∀ c ∈ xs, c ≠ p₀) (htail : (p₀ :: pr).isPrefixOf tail = true) :
    findSublist (p₀ :: pr) (xs ++ tail) = some xs.length := by
  induction xs with
  | nil =>
      cases tail with
      | nil => simp [List.isPrefixOf] at htail
      | cons t ts => simp [findSublist, htail]
  | cons x xs ih =>
      have hx : x ≠ p₀ := hxs x (by simp)
      have ih2 := ih (fun c hc => hxs c (by simp [hc]))
      simp [findSublist, isPrefixOf_cons_false hx, ih2]

theorem findSublist_none {p₀ : Char} {pr : List Char} (s : List Char)
    (hs : ∀ c ∈ s, c ≠ p₀) : findSublist (p₀ :: pr) s = none := by
  induction s with
  | nil => simp [findSublist]
  | cons x xs ih =>
      have hx : x ≠ p₀ := hs x (by simp)
      have ih2 := ih (fun c hc => hs c (by simp [hc]))
      simp [findSublist, isPrefixOf_cons_false hx, ih2]

theorem findLastOf_not_mem {c : Char} {s : List Char} (h : ∀ d ∈ s, d ≠ c) :
    findLastOf c s = none := by
  induction s with
  | nil => rfl
  | cons x xs ih =>
      have ih2 := ih (fun d hd => h d (by simp [hd]))
      simp [findLastOf, ih2, h x (by simp)]

theorem findLastOf_append_some {c : Char} {ys : List Char} {k : ℕ}
    (h : findLastOf c ys = some k) (xs : List Char) :
    findLastOf c (xs ++ ys) = some (xs.length + k) := by
  induction xs with
  | nil => simpa using h
  | cons x xs ih =>
      simp only [List.cons_append, findLastOf, List.append_eq, ih,
        List.length_cons]
      congr 1
      omega

theorem findLastOf_append_none {c : Char} {ys : List Char}
    (h : findLastOf c ys = none) (xs : List Char) :
    findLastOf c (xs ++ ys) = findLastOf c xs := by
  induction xs with
  | nil => simpa using h
  | cons x xs ih =>
      simp only [List.cons_append, findLastOf, List.append_eq, ih]

theorem findLastOf_last_pos (xs : List Char) {c : Char} {ys : List Char}
    (h : ∀ d ∈ ys, d ≠ c) : findLastOf c (xs ++ c :: ys) = some xs.length := by
  have h0 : findLastOf c (c :: ys) = some 0 := by
    simp [findLastOf, findLastOf_not_mem h]
  simpa using findLastOf_append_some h0 xs

theorem findIdxQ_append_left {p : Char → Bool} (xs ys : List Char)
    (hxs : ∀ c ∈ xs, p c = false) :
    findIdxQ p (xs ++ ys) = (findIdxQ p ys).map (xs.length + ·) := by
  induction xs with
  | nil =>
      simp only [List.nil_append, List.length_nil]
      cases findIdxQ p ys <;> simp
  | cons x xs ih =>
      have ih2 := ih (fun c hc => hxs c (by simp [hc]))
      simp only [List.cons_append, findIdxQ, List.append_eq, hxs x (by simp),
        ih2, Bool.false_eq_true, if_false]
      cases findIdxQ p ys with
      | none => rfl
      | some k =>
          simp
          omega

theorem findIdxQ_none {p : Char → Bool} (s : List Char)
    (hs : ∀ c ∈ s, p c = false) : findIdxQ p s = none := by
  induction s with
  | nil => rfl
  | cons x xs ih =>
      have ih2 := ih (fun c hc => hs c (by simp [hc]))
      simp [findIdxQ, hs x (by simp), ih2]

theorem findIdxQ_cons_true {p : Char → Bool} {c : Char} (s : List Char)
    (hc : p c = true) : findIdxQ p (c :: s) = some 0 := by
  simp [findIdxQ, hc]

theorem getLast?_app {xs ys : List Char} (h : ys ≠ []) :
    (xs ++ ys).getLast? = ys.getLast? :=
  List.getLast?_append_of_ne_nil xs h

theorem toUpperCase_fix_digits {s : List Char}
    (h : ∀ c ∈ s, isDigitChar c = true) : toUpperCase s = s := by
  induction s with
  | nil => rfl
  | cons c cs ih =>
      have h1 := digit_upper_fix (h c (by simp))
      have h2 := ih (fun d hd => h d (by simp [hd]))
      simp only [toUpperCase, List.map_cons] at *
      rw [h1, h2]

/-! ## Header reduction for the `_SUM` parser -/

theorem isEmpty_false {l : List Char} (h : l ≠ []) : l.isEmpty = false := by
  cases l with
  | nil => exact absurd rfl h
  | cons _ _ => rfl

theorem numStr_ne_comma {s : List Char} (h : isNumberString s = true) :
    ∀ c ∈ s, c ≠ ',' :=
  fun c hc => digit_ne_of (numStr_mem h hc) (by decide)

theorem nextComma_split (i R : List Char) (hi : ∀ c ∈ i, c ≠ ',') :
    nextComma (i ++ ',' :: R) = (i, R) := by
  unfold nextComma
  rw [findSublist_append_pos i (',' :: R) hi (by simp [List.isPrefixOf])]
  have hdd : (i ++ ',' :: R).drop (i.length + 1)
      = ((i ++ ',' :: R).drop i.length).drop 1 := by
    rw [List.drop_drop]
  show (List.take i.length (i ++ ',' :: R), List.drop (i.length + 1) (i ++ ',' :: R))
      = (i, R)
  rw [List.take_left, hdd, List.drop_left]
  rfl

theorem sumParse_header (vars : VarsMap) (i a b e : List Char)
    (hiWS : noWS i) (heWS : noWS e)
    (hiC : ∀ c ∈ i, c ≠ ',') (hiNe : i ≠ [])
    (haN : isNumberString a = true) (haNe : a ≠ [])
    (hbN : isNumberString b = true) (hbNe : b ≠ [])
    (heNe : e ≠ []) :
    sumParse (sumInput i a b e) vars = sumTail i a b e vars := by
  have hws : noWS (sumInput i a b e) := by
    simp only [sumInput]
    exact noWS_append.mpr ⟨noWS_append.mpr ⟨noWS_append.mpr ⟨noWS_append.mpr
      ⟨noWS_append.mpr ⟨noWS_append.mpr ⟨noWS_append.mpr ⟨noWS_append.mpr
        ⟨by decide, hiWS⟩, by decide⟩, noWS_of_digits haN⟩, by decide⟩,
          noWS_of_digits hbN⟩, by decide⟩, heWS⟩, by decide⟩
  have h1 : sumInput i a b e
      = ("_SUM[").toList ++ ((i ++ ',' :: (a ++ ',' :: (b ++ ',' :: e))) ++ [']']) := by
    simp [sumInput, List.append_assoc]
  have hdrop5 : ∀ X : List Char, ((("_SUM[").toList ++ X).drop 5) = X :=
    fun X => rfl
  have hPref : (("_SUM[").toList).isPrefixOf
      (("_SUM[").toList ++ ((i ++ ',' :: (a ++ ',' :: (b ++ ',' :: e))) ++ [']'])) = true :=
    isPrefixOf_app _ _
  have hLast : (("_SUM[").toList ++
      ((i ++ ',' :: (a ++ ',' :: (b ++ ',' :: e))) ++ [']'])).getLast? = some ']' := by
    rw [getLast?_app (by simp), List.getLast?_concat]
  have hBody : ((("_SUM[").toList ++
      ((i ++ ',' :: (a ++ ',' :: (b ++ ',' :: e))) ++ [']'])).drop 5).dropLast
      = i ++ ',' :: (a ++ ',' :: (b ++ ',' :: e)) := by
    rw [hdrop5 ((i ++ ',' :: (a ++ ',' :: (b ++ ',' :: e))) ++ [']']),
      List.dropLast_concat]
  have hn1 : nextComma (i ++ ',' :: (a ++ ',' :: (b ++ ',' :: e)))
      = (i, a ++ ',' :: (b ++ ',' :: e)) := nextComma_split i _ hiC
  have hn2 : nextComma (a ++ ',' :: (b ++ ',' :: e)) = (a, b ++ ',' :: e) :=
    nextComma_split a _ (numStr_ne_comma haN)
  have hn3 : nextComma (b ++ ',' :: e) = (b, e) :=
    nextComma_split b _ (numStr_ne_comma hbN)
  unfold sumParse
  rw [removeWS_id hws, h1]
  simp only [hPref, hLast, hBody, hn1, hn2, hn3, isEmpty_false hiNe,
    isEmpty_false haNe, isEmpty_false hbNe, isEmpty_false heNe, haN, hbN,
    Bool.not_true, Bool.false_or, ne_eq, not_true_eq_false, if_false,
    ite_false, Bool.or_false, Bool.false_eq_true, reduceIte]
  rfl

/-! ## Claim C10: degenerate `_SUM` loops are rejected -/

/-- C10: a `_SUM[i,a,b,expr]` input whose numeric start bound exceeds its end
bound parses to no term, and one whose body does not contain the bare
loop-variable template verbatim parses to no term, regardless of whether the
individual iterations would parse. -/
theorem C10_degenerate_sum (vars : VarsMap) (i a b e : List Char)
    (hiWS : noWS i) (heWS : noWS e)
    (hiC : ∀ c ∈ i, c ≠ ',') (hiNe : i ≠ [])
    (haN : isNumberString a = true) (haNe : a ≠ [])
    (hbN : isNumberString b = true) (hbNe : b ≠ [])
    (heNe : e ≠ []) :
    (stoiNat b < stoiNat a → sumParse (sumInput i a b e) vars = none)
    ∧ (findSublist (varFmtOf i) e = none →
        sumParse (sumInput i a b e) vars = none) := by
  rw [sumParse_header vars i a b e hiWS heWS hiC hiNe haN haNe hbN hbNe heNe]
  constructor
  · intro hlt
    unfold sumTail
    split
    · rfl
    · simp [hlt]
  · intro hnone
    unfold sumTail
    simp [hnone]

/-- Witness for C10: the loop `_SUM[i,3,2,1.0*X{i}]` (start bound above end
bound) and the loop `_SUM[i,0,2,1.0*X0]` (body without the bare template)
both fail to parse. -/
theorem C10_degenerate_sum_witness :
    sumParse (("_SUM[i,3,2,1.0*X{i}]").toList) [] = none
    ∧ sumParse (("_SUM[i,0,2,1.0*X0]").toList) [] = none := by
  constructor
  · exact (C10_degenerate_sum [] (("i").toList) (("3").toList) (("2").toList)
      (("1.0*X{i}").toList) (by decide) (by decide) (by decide) (by decide)
      (by decide) (by decide) (by decide) (by decide) (by decide)).1
      (by decide)
  · exact (C10_degenerate_sum [] (("i").toList) (("0").toList) (("2").toList)
      (("1.0*X0").toList) (by decide) (by decide) (by decide) (by decide)
      (by decide) (by decide) (by decide) (by decide) (by decide)).2
      (by decide)

/-! ## Parser failure lemmas (claim C8) -/

theorem drop_app_cons (t : List Char) (x : Char) (R : List Char) :
    (t ++ x :: R).drop (t.length + 1) = R := by
  have h : (t ++ x :: R).drop (t.length + 1)
      = ((t ++ x :: R).drop t.length).drop 1 := by
    rw [List.drop_drop]
  rw [h, List.drop_left]
  rfl

theorem drop_app_cons2 (t : List Char) (x y : Char) (R : List Char) :
    (t ++ x :: y :: R).drop (t.length + 2) = R := by
  have h : (t ++ x :: y :: R).drop (t.length + 2)
      = ((t ++ x :: y :: R).drop t.length).drop 2 := by
    rw [List.drop_drop]
  rw [h, List.drop_left]
  rfl

theorem alpha_ne_of {x y : Char} (h : isAlphaChar x = true)
    (hy : isAlphaChar y = false) : x ≠ y := by
  intro hEq
  subst hEq
  simp [h] at hy

theorem alpha_toNat {c : Char} (h : isAlphaChar c = true) :
    (97 ≤ c.toNat ∧ c.toNat ≤ 122) ∨ (65 ≤ c.toNat ∧ c.toNat ≤ 90) := by
  simpa [isAlphaChar] using h

theorem alpha_not_space {c : Char} (h : isAlphaChar c = true) :
    isSpaceChar c = false := by
  rcases alpha_toNat h with ⟨h1, h2⟩ | ⟨h1, h2⟩ <;>
    · simp only [isSpaceChar, Bool.or_eq_false_iff, decide_eq_false_iff_not]
      omega

theorem findIdxQ_isSome_of_true {p : Char → Bool} {s : List Char} {c : Char}
    (hc : c ∈ s) (hp : p c = true) : (findIdxQ p s).isSome = true := by
  induction s with
  | nil => simp at hc
  | cons a rest ih =>
      by_cases ha : p a = true
      · simp [findIdxQ, ha]
      · have hcr : c ∈ rest := by
          rcases List.mem_cons.mp hc with h | h
          · subst h; exact absurd hp ha
          · exact h
        obtain ⟨k, hk⟩ := Option.isSome_iff_exists.mp (ih hcr)
        simp [findIdxQ, ha, hk]

theorem TryEval_nil (vars : VarsMap) : TryEvaluateExpression [] vars = none := rfl

theorem opsRem_of_first_fail {s : List Char} (h : GetLastOperator s = none) :
    opsRem s = ([], []) := by
  simp [opsRem, peelOps, h]

theorem tryParse_none_parts {s : List Char} {vars : VarsMap}
    (h1 : sumParse s vars = none) (h2 : timeDepParse s vars = none)
    (h3 : timeIndParse s vars = none) : tryParseString s vars = none := by
  simp [tryParseString, h1, h2, h3]

theorem sumParse_none_of_last {s : List Char} (vars : VarsMap)
    (hws : removeWhiteSpaces s = s) (h : s.getLast? ≠ some ']') :
    sumParse s vars = none := by
  unfold sumParse
  rw [hws]
  by_cases hp : ("_SUM[").toList <+: s
  · simp only [List.isPrefixOf_iff_prefix.mpr hp, Bool.not_true,
      Bool.false_eq_true, if_false]
    rw [if_pos h]
  · have hp2 : ¬ (['_', 'S', 'U', 'M', '['] <+: s) := hp
    simp [hp2]

theorem sumParse_none_of_noPre {s : List Char} (vars : VarsMap)
    (hws : removeWhiteSpaces s = s)
    (hp : ¬ (("_SUM[").toList <+: s)) :
    sumParse s vars = none := by
  unfold sumParse
  rw [hws]
  have hp2 : ¬ (['_', 'S', 'U', 'M', '['] <+: s) := hp
  simp [hp2]

theorem timeInd_none_of_bar {s : List Char} (vars : VarsMap) (f : ℕ) {k : ℕ}
    (h : findSublist sepBar (removeWhiteSpaces s) = some k) :
    HamTimeIndFS vars (f + 1) s = none := by
  simp [HamTimeIndFS, h]

theorem timeDep_none_of_nobar {s : List Char} (vars : VarsMap) (f : ℕ)
    (h : findSublist sepBar (removeWhiteSpaces s) = none) :
    HamTimeDepFS vars (f + 1) s = none := by
  simp [HamTimeDepFS, h]

theorem UnwrapOp_nil_of_noParen {t : List Char} (hl : t.getLast? = some ')')
    (h : ∀ d ∈ t, d ≠ '(') : UnwrapOpExpresion t = [] := by
  simp [UnwrapOpExpresion, hl, findLastOf_not_mem h]

theorem goodChannel_noWS {ch : List Char} (h : goodChannel ch) : noWS ch := by
  obtain ⟨d, ds, rfl, hd, _, hds⟩ := h
  refine noWS_cons.mpr ⟨?_, noWS_of_digits hds⟩
  rcases hd with rfl | rfl <;> decide

theorem goodChannel_ok {ch : List Char} (h : goodChannel ch) :
    channelNameOk (toUpperCase ch) = true := by
  obtain ⟨d, ds, rfl, hd, hne, hds⟩ := h
  have hdU : asciiToUpper d = d := by rcases hd with rfl | rfl <;> decide
  cases ds with
  | nil => exact absurd rfl hne
  | cons d2 rest =>
      have hup : toUpperCase (d2 :: rest) = d2 :: rest :=
        toUpperCase_fix_digits (fun c hc => numStr_mem hds hc)
      have hmap : List.map asciiToUpper (d2 :: rest) = d2 :: rest := by
        simpa [toUpperCase] using hup
      show channelNameOk (List.map asciiToUpper (d :: d2 :: rest)) = true
      rw [List.map_cons, hdU, hmap]
      rcases hd with rfl | rfl <;> simp [channelNameOk, hds]

theorem goodChannel_last {ch : List Char} (h : goodChannel ch) :
    ∃ dd, ch.getLast? = some dd ∧ isDigitChar dd = true := by
  obtain ⟨d, ds, rfl, _, hne, hds⟩ := h
  have hl : (d :: ds).getLast? = ds.getLast? := @getLast?_app [d] _ hne
  cases hg : ds.getLast? with
  | none => exact absurd (List.getLast?_eq_none_iff.mp hg) hne
  | some dd =>
      refine ⟨dd, by simpa [hl] using hg, ?_⟩
      exact numStr_mem hds (List.mem_of_getLast?_eq_some hg)

theorem noWS_channel_input {t ch : List Char} (hws : noWS t) (hchWS : noWS ch) :
    removeWhiteSpaces (t ++ '|' :: '|' :: ch) = t ++ '|' :: '|' :: ch :=
  removeWS_id (noWS_append.mpr ⟨hws,
    noWS_cons.mpr ⟨by decide, noWS_cons.mpr ⟨by decide, hchWS⟩⟩⟩)

theorem channel_input_last {t ch : List Char} {dd : Char}
    (hchNe : ch ≠ []) (hdd : ch.getLast? = some dd) :
    (t ++ '|' :: '|' :: ch).getLast? = some dd := by
  rw [getLast?_app (by simp)]
  have h2 : ('|' :: '|' :: ch).getLast? = ch.getLast? :=
    @getLast?_app ['|', '|'] _ hchNe
  rw [h2, hdd]

theorem digit_ne_rbracket {c : Char} (h : isDigitChar c = true) : c ≠ ']' :=
  @digit_ne_of c ']' h (by decide)

theorem digit_ne_rparen {c : Char} (h : isDigitChar c = true) : c ≠ ')' :=
  @digit_ne_of c ')' h (by decide)

/-! ## Claim C8: malformed inputs are rejected by the parser -/

/-- C8: the Hamiltonian parser returns no term on each of the malformed
categories the spec lists, and the string-level `tryParse` therefore fails:
an operator expression that ends in a closing parenthesis with no opening one
(unmatched parenthesis), a parenthesised group containing a further
parenthesis (nested parenthesised sums cannot be unwrapped), an unknown
operator symbol, a malformed channel name after `||`, and an opening
parenthesis that is never closed. -/
theorem C8_parser_failures (vars : VarsMap) :
    (∀ t ch, noWS t → (∀ c ∈ t, c ≠ '|') → (∀ c ∈ t, c ≠ '(') →
      t.getLast? = some ')' → goodChannel ch →
      tryParseString (t ++ '|' :: '|' :: ch) vars = none)
    ∧ (∀ p w ch, noWS p → noWS w → (∀ c ∈ p, c ≠ '|') → (∀ c ∈ w, c ≠ '|') →
      (∀ c ∈ w, c ≠ '(') → (')') ∈ w → goodChannel ch →
      tryParseString ((p ++ '(' :: (w ++ [')'])) ++ '|' :: '|' :: ch) vars = none)
    ∧ (∀ c opName ds, noWS c → (∀ x ∈ c, x ≠ '|') →
      opName ≠ [] → (∀ x ∈ opName, isAlphaChar x = true) →
      (∀ x ∈ toUpperCase opName, isAlphaChar x = true) →
      ds ≠ [] → isNumberString ds = true →
      ConvertOperatorFromString (toUpperCase opName) = Operator.NA →
      tryParseString (c ++ '*' :: (opName ++ ds)) vars = none)
    ∧ (∀ t ch, noWS t → (∀ c ∈ t, c ≠ '|') → noWS ch →
      channelNameOk (toUpperCase ch) = false →
      ¬ (("_SUM[").toList <+: (t ++ '|' :: '|' :: ch)) →
      tryParseString (t ++ '|' :: '|' :: ch) vars = none)
    ∧ (∀ c w, noWS c → (∀ x ∈ c, x ≠ '|') → noWS w → (∀ x ∈ w, x ≠ '|') →
      (∀ x ∈ w, x ≠ ')') → (∀ x ∈ w, x ≠ '*') →
      (c ++ '*' :: '(' :: w).getLast? ≠ some ']' →
      tryParseString (c ++ '*' :: '(' :: w) vars = none) := by
  refine ⟨?_, ?_, ?_, ?_, ?_⟩
  · -- (1) unmatched right parenthesis under a valid channel
    intro t ch hws hbar hpar hlast hch
    have hchWS := goodChannel_noWS hch
    have hchOk := goodChannel_ok hch
    obtain ⟨dd, hdd, hddD⟩ := goodChannel_last hch
    have hchNe : ch ≠ [] := by
      obtain ⟨d, ds, rfl, _⟩ := hch
      simp
    have hwsIn := noWS_channel_input hws hchWS
    have hsep : findSublist sepBar (t ++ '|' :: '|' :: ch) = some t.length :=
      findSublist_append_pos t _ hbar (by simp [List.isPrefixOf, sepBar])
    have hsum : sumParse (t ++ '|' :: '|' :: ch) vars = none := by
      apply sumParse_none_of_last vars hwsIn
      rw [channel_input_last hchNe hdd]
      simp [digit_ne_rbracket hddD]
    have htd : timeDepParse (t ++ '|' :: '|' :: ch) vars = none := by
      unfold timeDepParse
      simp only [HamTimeDepFS, hwsIn, hsep, drop_app_cons2, hchOk,
        List.take_left, hlast, Bool.not_true, Bool.false_eq_true, if_false,
        reduceIte, UnwrapOp_nil_of_noParen hlast hpar]
    have hti : timeIndParse (t ++ '|' :: '|' :: ch) vars = none := by
      unfold timeIndParse
      exact timeInd_none_of_bar vars _ (by rw [hwsIn]; exact hsep)
    exact tryParse_none_parts hsum htd hti
  · -- (2) nested parenthesis inside the wrapped group
    intro p w ch hwsp hwsw hbarp hbarw hparw hmem hch
    have hchWS := goodChannel_noWS hch
    have hchOk := goodChannel_ok hch
    obtain ⟨dd, hdd, hddD⟩ := goodChannel_last hch
    have hchNe : ch ≠ [] := by
      obtain ⟨d, ds, rfl, _⟩ := hch
      simp
    have hwsT : noWS (p ++ '(' :: (w ++ [')'])) := by
      refine noWS_append.mpr ⟨hwsp, noWS_cons.mpr ⟨by decide, ?_⟩⟩
      exact noWS_append.mpr ⟨hwsw, by decide⟩
    have hbarT : ∀ c ∈ p ++ '(' :: (w ++ [')']), c ≠ '|' := by
      intro c hc
      simp only [List.mem_append, List.mem_cons] at hc
      rcases hc with h | h | h | h | h
      · exact hbarp c h
      · subst h; decide
      · exact hbarw c h
      · subst h; decide
      · simp at h
    have hlastT : (p ++ '(' :: (w ++ [')'])).getLast? = some ')' := by
      rw [getLast?_app (by simp)]
      have h2 : ('(' :: (w ++ [')'])).getLast? = (w ++ [')']).getLast? :=
        @getLast?_app ['('] _ (by simp)
      rw [h2, List.getLast?_concat]
    have hwsIn := noWS_channel_input hwsT hchWS
    have hsep : findSublist sepBar ((p ++ '(' :: (w ++ [')'])) ++ '|' :: '|' :: ch)
        = some (p ++ '(' :: (w ++ [')'])).length :=
      findSublist_append_pos _ _ hbarT (by simp [List.isPrefixOf, sepBar])
    have hunw : UnwrapOpExpresion (p ++ '(' :: (w ++ [')'])) = [] := by
      have hfl : findLastOf '(' (p ++ '(' :: (w ++ [')'])) = some p.length :=
        @findLastOf_last_pos p '(' (w ++ [')'])
          (by
            intro d hd
            rcases List.mem_append.mp hd with h2 | h2
            · exact hparw d h2
            · simp at h2; subst h2; decide)
      have hsome : (findIdxQ (fun ch => ch = ')') w).isSome = true :=
        findIdxQ_isSome_of_true hmem (by simp)
      simp only [UnwrapOpExpresion, hlastT, hfl, drop_app_cons,
        List.dropLast_concat, hsome, ne_eq, not_true_eq_false, if_false,
        Bool.or_true, if_true, reduceIte]
    have hsum : sumParse ((p ++ '(' :: (w ++ [')'])) ++ '|' :: '|' :: ch) vars
        = none := by
      apply sumParse_none_of_last vars hwsIn
      rw [channel_input_last hchNe hdd]
      simp [digit_ne_rbracket hddD]
    have htd : timeDepParse ((p ++ '(' :: (w ++ [')'])) ++ '|' :: '|' :: ch) vars
        = none := by
      unfold timeDepParse
      simp only [HamTimeDepFS, hwsIn, hsep, drop_app_cons2, hchOk,
        List.take_left, hlastT, Bool.not_true, Bool.false_eq_true, if_false,
        reduceIte, hunw]
    have hti : timeIndParse ((p ++ '(' :: (w ++ [')'])) ++ '|' :: '|' :: ch) vars
        = none := by
      unfold timeIndParse
      exact timeInd_none_of_bar vars _ (by rw [hwsIn]; exact hsep)
    exact tryParse_none_parts hsum htd hti
  · -- (3) unknown operator symbol
    intro c opName ds hwsc hbarc hopNe hopAl hopAlU hdsNe hdsN hna
    have hdigWS := noWS_of_digits hdsN
    have hopWS : noWS opName := fun x hx => alpha_not_space (hopAl x hx)
    have hwsIn : removeWhiteSpaces (c ++ '*' :: (opName ++ ds))
        = c ++ '*' :: (opName ++ ds) :=
      removeWS_id (noWS_append.mpr ⟨hwsc, noWS_cons.mpr ⟨by decide,
        noWS_append.mpr ⟨hopWS, hdigWS⟩⟩⟩)
    have hnobar : ∀ x ∈ c ++ '*' :: (opName ++ ds), x ≠ '|' := by
      intro x hx
      simp only [List.mem_append, List.mem_cons] at hx
      rcases hx with h | h | h
      · exact hbarc x h
      · subst h; decide
      · rcases h with h2 | h2
        · exact alpha_ne_of (hopAl x h2) (by decide)
        · exact digit_ne_of (numStr_mem hdsN h2) (by decide)
    have hnosep : findSublist sepBar (c ++ '*' :: (opName ++ ds)) = none :=
      findSublist_none _ hnobar
    obtain ⟨d0, ds', rfl⟩ : ∃ d0 ds', ds = d0 :: ds' := by
      cases ds with
      | nil => exact absurd rfl hdsNe
      | cons d0 ds' => exact ⟨d0, ds', rfl⟩
    have hlastIn : ∃ dd, (c ++ '*' :: (opName ++ d0 :: ds')).getLast? = some dd
        ∧ isDigitChar dd = true := by
      obtain ⟨dd, hdd, hddD⟩ : ∃ dd, (d0 :: ds').getLast? = some dd
          ∧ isDigitChar dd = true := by
        cases hg : (d0 :: ds').getLast? with
        | none => simp at hg
        | some dd =>
            exact ⟨dd, rfl, numStr_mem hdsN (List.mem_of_getLast?_eq_some hg)⟩
      refine ⟨dd, ?_, hddD⟩
      rw [getLast?_app (by simp)]
      have h2 : ('*' :: (opName ++ d0 :: ds')).getLast?
          = (opName ++ d0 :: ds').getLast? := @getLast?_app ['*'] _ (by simp)
      rw [h2, getLast?_app (by simp), hdd]
    obtain ⟨dd, hddEq, hddD⟩ := hlastIn
    have hglo : GetLastOperator (c ++ '*' :: (opName ++ d0 :: ds')) = none := by
      have hfl : findLastOf '*' (c ++ '*' :: (opName ++ d0 :: ds'))
          = some c.length :=
        @findLastOf_last_pos c '*' (opName ++ d0 :: ds')
          (by
            intro d hd
            rcases List.mem_append.mp hd with h2 | h2
            · exact alpha_ne_of (hopAl d h2) (by decide)
            · exact digit_ne_of (numStr_mem hdsN h2) (by decide))
      have hupds : toUpperCase (d0 :: ds') = d0 :: ds' :=
        toUpperCase_fix_digits (fun x hx => numStr_mem hdsN hx)
      have hsplit : toUpperCase (opName ++ d0 :: ds')
          = toUpperCase opName ++ d0 :: ds' := by
        simp only [toUpperCase, List.map_append]
        rw [show List.map asciiToUpper (d0 :: ds') = d0 :: ds' from by
          simpa [toUpperCase] using hupds]
      have hfi : findIdxQ (fun ch => !isAlphaChar ch)
          (toUpperCase opName ++ d0 :: ds')
          = some ((toUpperCase opName).length + 0) := by
        rw [findIdxQ_append_left (toUpperCase opName) (d0 :: ds')
          (fun x hx => by simp [hopAlU x hx])]
        rw [findIdxQ_cons_true _
          (by simp [digit_not_alpha (numStr_mem hdsN (List.mem_cons_self d0 ds'))])]
        rfl
      simp only [GetLastOperator, hfl, drop_app_cons, hsplit, hfi,
        Nat.add_zero, List.take_left, hna, reduceIte]
      split <;> rfl
    have hsum : sumParse (c ++ '*' :: (opName ++ d0 :: ds')) vars = none := by
      apply sumParse_none_of_last vars hwsIn
      rw [hddEq]
      simp [digit_ne_rbracket hddD]
    have htd : timeDepParse (c ++ '*' :: (opName ++ d0 :: ds')) vars = none := by
      unfold timeDepParse
      exact timeDep_none_of_nobar vars _ (by rw [hwsIn]; exact hnosep)
    have hti : timeIndParse (c ++ '*' :: (opName ++ d0 :: ds')) vars = none := by
      unfold timeIndParse
      simp only [HamTimeIndFS, hwsIn, hnosep]
      rw [if_neg (by rw [hddEq]; simp [digit_ne_rparen hddD])]
      rw [opsRem_of_first_fail hglo]
      simp [TryEval_nil]
    exact tryParse_none_parts hsum htd hti
  · -- (4) malformed channel name
    intro t ch hws hbar hchWS hbad hnp
    have hwsIn := noWS_channel_input hws hchWS
    have hsep : findSublist sepBar (t ++ '|' :: '|' :: ch) = some t.length :=
      findSublist_append_pos t _ hbar (by simp [List.isPrefixOf, sepBar])
    have hsum : sumParse (t ++ '|' :: '|' :: ch) vars = none :=
      sumParse_none_of_noPre vars hwsIn hnp
    have htd : timeDepParse (t ++ '|' :: '|' :: ch) vars = none := by
      unfold timeDepParse
      simp only [HamTimeDepFS, hwsIn, hsep, drop_app_cons2, hbad,
        Bool.not_false, if_true, reduceIte]
    have hti : timeIndParse (t ++ '|' :: '|' :: ch) vars = none := by
      unfold timeIndParse
      exact timeInd_none_of_bar vars _ (by rw [hwsIn]; exact hsep)
    exact tryParse_none_parts hsum htd hti
  · -- (5) unmatched left parenthesis
    intro c w hwsc hbarc hwsw hbarw hparw hstarw hlast
    have hwsIn : removeWhiteSpaces (c ++ '*' :: '(' :: w) = c ++ '*' :: '(' :: w :=
      removeWS_id (noWS_append.mpr ⟨hwsc, noWS_cons.mpr ⟨by decide,
        noWS_cons.mpr ⟨by decide, hwsw⟩⟩⟩)
    have hnobar : ∀ x ∈ c ++ '*' :: '(' :: w, x ≠ '|' := by
      intro x hx
      simp only [List.mem_append, List.mem_cons] at hx
      rcases hx with h | h | h | h
      · exact hbarc x h
      · subst h; decide
      · subst h; decide
      · exact hbarw x h
    have hnosep : findSublist sepBar (c ++ '*' :: '(' :: w) = none :=
      findSublist_none _ hnobar
    have hlastNp : (c ++ '*' :: '(' :: w).getLast? ≠ some ')' := by
      rw [getLast?_app (by simp)]
      cases w with
      | nil => simp
      | cons w0 w' =>
          have h2 : ('*' :: '(' :: w0 :: w').getLast? = (w0 :: w').getLast? :=
            @getLast?_app ['*', '('] _ (by simp)
          rw [h2]
          cases hg : (w0 :: w').getLast? with
          | none => simp at hg
          | some lw =>
              have : lw ≠ ')' := hparw lw (List.mem_of_getLast?_eq_some hg)
              simp [this]
    have hglo : GetLastOperator (c ++ '*' :: '(' :: w) = none := by
      have hfl : findLastOf '*' (c ++ '*' :: '(' :: w) = some c.length :=
        @findLastOf_last_pos c '*' ('(' :: w)
          (by
            intro d hd
            rcases List.mem_cons.mp hd with h2 | h2
            · subst h2; decide
            · exact hstarw d h2)
      have hup : toUpperCase ('(' :: w) = '(' :: toUpperCase w := by
        simp [toUpperCase, asciiToUpper]
      have hfi : findIdxQ (fun ch => !isAlphaChar ch) ('(' :: toUpperCase w)
          = some 0 := findIdxQ_cons_true _ (by decide)
      simp only [GetLastOperator, hfl, drop_app_cons, hup, hfi,
        List.take_nil, List.take_zero, List.length_nil]
      rfl
    have hsum : sumParse (c ++ '*' :: '(' :: w) vars = none :=
      sumParse_none_of_last vars hwsIn hlast
    have htd : timeDepParse (c ++ '*' :: '(' :: w) vars = none := by
      unfold timeDepParse
      exact timeDep_none_of_nobar vars _ (by rw [hwsIn]; exact hnosep)
    have hti : timeIndParse (c ++ '*' :: '(' :: w) vars = none := by
      unfold timeIndParse
      simp only [HamTimeIndFS, hwsIn, hnosep]
      rw [if_neg hlastNp]
      rw [opsRem_of_first_fail hglo]
      simp [TryEval_nil]
    exact tryParse_none_parts hsum htd hti

/-- Witness for C8: one concrete input per failure category. -/
theorem C8_parser_failures_witness :
    tryParseString (("0.5*X0+Y0)||D1").toList) [] = none
    ∧ tryParseString (("0.5*(X0)Y0)||D1").toList) [] = none
    ∧ tryParseString (("1.0*Q0").toList) [] = none
    ∧ tryParseString (("1.0*X0||Z1").toList) [] = none
    ∧ tryParseString (("0.5*(X0+Y0").toList) [] = none := by
  obtain ⟨h1, h2, h3, h4, h5⟩ := C8_parser_failures []
  refine ⟨?_, ?_, ?_, ?_, ?_⟩
  · exact h1 (("0.5*X0+Y0)").toList) (("D1").toList) (by decide) (by decide)
      (by decide) (by decide) ⟨'D', ['1'], rfl, Or.inl rfl, by decide, by decide⟩
  · exact h2 (("0.5*").toList) (("X0)Y0").toList) (("D1").toList) (by decide)
      (by decide) (by decide) (by decide) (by decide) (by decide)
      ⟨'D', ['1'], rfl, Or.inl rfl, by decide, by decide⟩
  · exact h3 (("1.0").toList) (("Q").toList) (("0").toList) (by decide)
      (by decide) (by decide) (by decide) (by decide) (by decide) (by decide)
      (by decide)
  · exact h4 (("1.0*X0").toList) (("Z1").toList) (by decide) (by decide)
      (by decide) (by decide) (by decide)
  · exact h5 (("0.5").toList) (("X0+Y0").toList) (by decide) (by decide)
      (by decide) (by decide) (by decide) (by decide) (by decide)

/-! ## Template-resolution character lemmas (claim C3) -/

theorem digitChar_isDigit {n : ℕ} (h : n < 10) :
    isDigitChar (digitChar n) = true := by
  interval_cases n <;> decide

theorem mem_natToChars {x : Char} :
    ∀ {f n : ℕ}, x ∈ natToChars f n → isDigitChar x = true := by
  intro f
  induction f with
  | zero => intro n hx; simp [natToChars] at hx
  | succ f ih =>
      intro n hx
      by_cases hn : n < 10
      · simp [natToChars, hn] at hx
        subst hx
        exact digitChar_isDigit hn
      · simp only [natToChars, hn, if_false, List.mem_append,
          List.mem_singleton, reduceIte] at hx
        rcases hx with h | h
        · exact ih h
        · subst h
          exact digitChar_isDigit (Nat.mod_lt _ (by norm_num))

theorem mem_intToChars {z : ℤ} {x : Char} (hx : x ∈ intToChars z) :
    x = '-' ∨ isDigitChar x = true := by
  unfold intToChars at hx
  by_cases hz : z < 0
  · simp only [hz, if_true, List.mem_cons, reduceIte] at hx
    rcases hx with h | h
    · exact Or.inl h
    · exact Or.inr (mem_natToChars h)
  · simp only [hz, if_false, reduceIte] at hx
    exact Or.inr (mem_natToChars hx)

theorem mem_replaceAll {x : Char} :
    ∀ {f : ℕ} {s pat rep : List Char}, x ∈ replaceAll f s pat rep →
      x ∈ s ∨ x ∈ rep := by
  intro f
  induction f with
  | zero => intro s pat rep hx; exact Or.inl hx
  | succ f ih =>
      intro s pat rep hx
      unfold replaceAll at hx
      cases hidx : findSublist pat s with
      | none => rw [hidx] at hx; exact Or.inl hx
      | some i =>
          rw [hidx] at hx
          simp only [List.mem_append] at hx
          rcases hx with (h | h) | h
          · exact Or.inl (List.take_subset i s h)
          · exact Or.inr h
          · rcases ih h with h2 | h2
            · exact Or.inl (List.drop_subset _ s h2)
            · exact Or.inr h2

theorem mem_resolve_fold {x : Char} :
    ∀ (ps : List (List Char × ℤ)) (s : List Char),
      x ∈ ps.foldl (fun s2 p => replaceAll (s2.length + 1) s2 p.1
        (intToChars p.2)) s →
      x ∈ s ∨ x = '-' ∨ isDigitChar x = true := by
  intro ps
  induction ps with
  | nil => intro s hx; exact Or.inl hx
  | cons p ps ih =>
      intro s hx
      simp only [List.foldl_cons] at hx
      rcases ih _ hx with h | h
      · rcases mem_replaceAll h with h2 | h2
        · exact Or.inl h2
        · exact Or.inr (mem_intToChars h2)
      · exact Or.inr h

theorem mem_resolve {e i : List Char} {v : ℤ} {x : Char}
    (hx : x ∈ resolveLoopTemplate e i v) :
    x ∈ e ∨ x = '-' ∨ isDigitChar x = true :=
  mem_resolve_fold _ e (by simpa [resolveLoopTemplate] using hx)

theorem noWS_resolve {e i : List Char} {v : ℤ} (he : noWS e) :
    noWS (resolveLoopTemplate e i v) := by
  intro x hx
  rcases mem_resolve hx with h | h | h
  · exact he x h
  · subst h; decide
  · exact digit_not_space h

theorem optionSequence_eq {α : Type} :
    ∀ {l : List (Option α)} {ts : List α},
      optionSequence l = some ts → l = ts.map some := by
  intro l
  induction l with
  | nil =>
      intro ts h
      simp only [optionSequence, Option.some.injEq] at h
      subst h
      rfl
  | cons o rest ih =>
      intro ts h
      cases o with
      | none => simp [optionSequence] at h
      | some a =>
          simp only [optionSequence] at h
          cases hr : optionSequence rest with
          | none => rw [hr] at h; simp at h
          | some ts' =>
              rw [hr] at h
              simp only [Option.map_some', Option.some.injEq] at h
              subst h
              simp [ih hr]

theorem kids_extract {α : Type} {A N : ℕ} {g : ℕ → Option α} {ts : List α}
    (hmapEq : (List.range' A N).map g = ts.map some) :
    ts.length = N
    ∧ ∀ k, (hk : k < ts.length) → g (A + k) = some (ts.get ⟨k, hk⟩) := by
  have hlen : ts.length = N := by
    have h := congrArg List.length hmapEq
    rw [List.length_map, List.length_map, List.length_range'] at h
    exact h.symm
  refine ⟨hlen, ?_⟩
  intro k hk
  have hkR : k < (List.range' A N).length := by
    rw [List.length_range']
    omega
  have h1 : ((List.range' A N).map g)[k]? = (ts.map some)[k]? := by
    rw [hmapEq]
  rw [List.getElem?_map, List.getElem?_map, List.getElem?_eq_getElem hkR,
    List.getElem?_eq_getElem hk] at h1
  simp only [Option.map_some', Option.some.injEq] at h1
  rw [List.getElem_range'] at h1
  simp only [Nat.one_mul] at h1
  rw [List.get_eq_getElem]
  exact h1

/-! ## Claim C3: `_SUM` unrolling -/

/-- C3: when a `_SUM[i,a,b,expr]` input with numeric bounds `a <= b` parses
to a term, that term is the sum of exactly `b - a + 1` children, and the k-th
child is the parse of the body with the loop variable resolved to `a + k`
(bare templates replaced by the value, sub-expression templates evaluated by
the scalar engine).  The coherence hypothesis states that either no iteration
is time-dependent or the start iteration is; outside it the code's trial
parses and the per-iteration parses cannot be compared. -/
theorem C3_sum_unrolling (vars : VarsMap) (i a b e : List Char)
    (hiWS : noWS i) (heWS : noWS e)
    (hiC : ∀ c ∈ i, c ≠ ',') (hiNe : i ≠ [])
    (haN : isNumberString a = true) (haNe : a ≠ [])
    (hbN : isNumberString b = true) (hbNe : b ≠ [])
    (heNe : e ≠ [])
    (hvar : (findSublist (varFmtOf i) e).isSome = true)
    (hab : stoiNat a ≤ stoiNat b)
    (hnotsum : ∀ v ∈ List.range' (stoiNat a) (stoiNat b + 1 - stoiNat a),
      ¬ (("_SUM[").toList <+: resolveLoopTemplate e i (v : ℤ)))
    (hkind : (∀ v ∈ List.range' (stoiNat a) (stoiNat b + 1 - stoiNat a),
        timeDepParse (resolveLoopTemplate e i (v : ℤ)) vars = none)
      ∨ (timeDepParse (resolveLoopTemplate e i (stoiNat a : ℤ)) vars).isSome = true)
    (t : HamiltonianTerm)
    (hp : sumParse (sumInput i a b e) vars = some t) :
    ∃ kids, t = HamiltonianTerm.sum kids
      ∧ kids.length = stoiNat b + 1 - stoiNat a
      ∧ ∀ k, (hk : k < kids.length) →
          tryParseString (resolveLoopTemplate e i ((stoiNat a + k : ℕ) : ℤ)) vars
            = some (kids.get ⟨k, hk⟩) := by
  rw [sumParse_header vars i a b e hiWS heWS hiC hiNe haN haNe hbN hbNe heNe]
    at hp
  unfold sumTail at hp
  have hvn : (findSublist (varFmtOf i) e).isNone = false := by
    cases hfs : findSublist (varFmtOf i) e with
    | none => rw [hfs] at hvar; simp at hvar
    | some k => rfl
  rw [hvn] at hp
  simp only [Bool.false_eq_true, if_false, reduceIte] at hp
  rw [if_neg (not_lt.mpr hab)] at hp
  have hamem : stoiNat a ∈ List.range' (stoiNat a) (stoiNat b + 1 - stoiNat a) := by
    rw [List.mem_range']
    exact ⟨0, by omega, by omega⟩
  -- the parse of each resolved iteration, by kind
  rcases hkind with hall | hsome
  · -- time-independent sum
    have htd0 : timeDepParse (resolveLoopTemplate e i (stoiNat a : ℤ)) vars
        = none := hall _ hamem
    rw [htd0] at hp
    simp only [Option.isNone_none, Bool.true_and, Option.isSome_none,
      Bool.false_eq_true, if_false, reduceIte] at hp
    cases hti0 : timeIndParse (resolveLoopTemplate e i (stoiNat a : ℤ)) vars with
    | none =>
        rw [hti0] at hp
        simp at hp
    | some t0 =>
        rw [hti0] at hp
        simp only [Option.isNone_some, Bool.false_eq_true, if_false,
          reduceIte] at hp
        split at hp
        case _ ts hseq =>
            simp only [Option.some.injEq] at hp
            subst hp
            obtain ⟨hlen, hget⟩ := kids_extract (optionSequence_eq hseq)
            refine ⟨ts, rfl, hlen, ?_⟩
            intro k hk
            have hv : stoiNat a + k ∈ List.range' (stoiNat a)
                (stoiNat b + 1 - stoiNat a) := by
              rw [List.mem_range']
              exact ⟨k, by omega, by omega⟩
            have hsumN : sumParse (resolveLoopTemplate e i
                ((stoiNat a + k : ℕ) : ℤ)) vars = none :=
              sumParse_none_of_noPre vars (removeWS_id (noWS_resolve heWS))
                (hnotsum _ hv)
            have htdN : timeDepParse (resolveLoopTemplate e i
                ((stoiNat a + k : ℕ) : ℤ)) vars = none := hall _ hv
            have hchild := hget k hk
            push_cast at hsumN htdN hchild
            simp [tryParseString, hsumN, htdN, hchild]
        case _ hseq =>
            simp at hp
  · -- time-dependent sum
    obtain ⟨t0, ht0⟩ := Option.isSome_iff_exists.mp hsome
    rw [ht0] at hp
    simp only [Option.isNone_some, Bool.false_and, Bool.false_eq_true,
      if_false, Option.isSome_some, if_true, reduceIte] at hp
    split at hp
    case _ ts hseq =>
        simp only [Option.some.injEq] at hp
        subst hp
        obtain ⟨hlen, hget⟩ := kids_extract (optionSequence_eq hseq)
        refine ⟨ts, rfl, hlen, ?_⟩
        intro k hk
        have hv : stoiNat a + k ∈ List.range' (stoiNat a)
            (stoiNat b + 1 - stoiNat a) := by
          rw [List.mem_range']
          exact ⟨k, by omega, by omega⟩
        have hsumN : sumParse (resolveLoopTemplate e i
            ((stoiNat a + k : ℕ) : ℤ)) vars = none :=
          sumParse_none_of_noPre vars (removeWS_id (noWS_resolve heWS))
            (hnotsum _ hv)
        have hchild := hget k hk
        push_cast at hsumN hchild
        simp [tryParseString, hsumN, hchild]
    case _ hseq =>
        simp at hp

/-- Witness for C3: the scenario-C loop `_SUM[i,0,2,1.0*X{i}]` parses to a
sum of exactly three children, the k-th being the parse of `1.0*X{i}` with
the template resolved to the value `k`. -/
theorem C3_sum_unrolling_witness :
    ∃ t, sumParse (sumInput (("i").toList) (("0").toList) (("2").toList)
        (("1.0*X{i}").toList)) [] = some t
      ∧ ∃ kids, t = HamiltonianTerm.sum kids
        ∧ kids.length = stoiNat (("2").toList) + 1 - stoiNat (("0").toList)
        ∧ ∀ k, (hk : k < kids.length) →
            tryParseString (resolveLoopTemplate (("1.0*X{i}").toList)
              (("i").toList) ((stoiNat (("0").toList) + k : ℕ) : ℤ)) []
              = some (kids.get ⟨k, hk⟩) := by
  cases h : sumParse (sumInput (("i").toList) (("0").toList) (("2").toList)
      (("1.0*X{i}").toList)) [] with
  | none =>
      have hs : (sumParse (sumInput (("i").toList) (("0").toList)
          (("2").toList) (("1.0*X{i}").toList)) []).isSome = true := by decide
      rw [h] at hs
      exact absurd hs (by decide)
  | some t =>
      refine ⟨t, rfl, ?_⟩
      exact C3_sum_unrolling [] (("i").toList) (("0").toList) (("2").toList)
        (("1.0*X{i}").toList)
        (by decide) (by decide) (by decide) (by decide) (by decide) (by decide)
        (by decide) (by decide) (by decide) (by decide) (by decide)
        (by
          intro v hv
          have hv3 : v ∈ List.range' 0 3 := hv
          fin_cases hv3 <;> decide)
        (Or.inl (by
          intro v hv
          have hv3 : v ∈ List.range' 0 3 := hv
          fin_cases hv3 <;> rfl))
        t h

/-! ## Claim C4: distribution of `c*(A pm B) || Ch`

The lemmas below settle the unwrap-and-recurse branch of
`HamiltonianTimeDependentTerm::fromString`: fuel monotonicity and an
accumulator-scaling property of the modelled expression engine, an append
lemma for `GetLastOperator` and the operator-peeling loop, the computation of
`UnwrapOpExpresion` on a `c*(A pm B)` shape, and flat-branch and
unwrap-branch characterizations of the parser. -/

theorem parseERest_stop (vars : VarsMap) (g : ℕ) (a : ℚ) {c : Char}
    (rest : List Char) (hc1 : c ≠ '+') (hc2 : c ≠ '-') :
    parseERest vars (g + 1) a (c :: rest) = some (a, c :: rest) := by
  simp only [parseERest]
  split
  · next r heq => exact absurd (List.cons.inj heq).1 hc1
  · next r heq => exact absurd (List.cons.inj heq).1 hc2
  · rfl

theorem parseTRest_stop (vars : VarsMap) (g : ℕ) (a : ℚ) {c : Char}
    (rest : List Char) (hc : c ≠ '*') :
    parseTRest vars (g + 1) a (c :: rest) = some (a, c :: rest) := by
  simp only [parseTRest]
  split
  · next r heq => exact absurd (List.cons.inj heq).1 hc
  · rfl

theorem parseF_other (vars : VarsMap) (g : ℕ) {c : Char} (rest : List Char)
    (hc1 : c ≠ '-') (hc2 : c ≠ '+') (hc3 : c ≠ '(') :
    parseF vars (g + 1) (c :: rest) = parseAtom vars (c :: rest) := by
  simp only [parseF]
  split
  · next r heq => exact absurd (List.cons.inj heq).1 hc1
  · next r heq => exact absurd (List.cons.inj heq).1 hc2
  · next r heq => exact absurd (List.cons.inj heq).1 hc3
  · rfl

theorem parse_fuel_succ (vars : VarsMap) : ∀ f : ℕ,
    (∀ s v r, parseE vars f s = some (v, r) → parseE vars (f + 1) s = some (v, r))
    ∧ (∀ a s v r, parseERest vars f a s = some (v, r) →
        parseERest vars (f + 1) a s = some (v, r))
    ∧ (∀ s v r, parseT vars f s = some (v, r) → parseT vars (f + 1) s = some (v, r))
    ∧ (∀ a s v r, parseTRest vars f a s = some (v, r) →
        parseTRest vars (f + 1) a s = some (v, r))
    ∧ (∀ s v r, parseF vars f s = some (v, r) → parseF vars (f + 1) s = some (v, r)) := by
  intro f
  induction f with
  | zero =>
      refine ⟨?_, ?_, ?_, ?_, ?_⟩
      · intro s v r h; simp [parseE] at h
      · intro a s v r h; simp [parseERest] at h
      · intro s v r h; simp [parseT] at h
      · intro a s v r h; simp [parseTRest] at h
      · intro s v r h; simp [parseF] at h
  | succ f ih =>
      obtain ⟨ihE, ihER, ihT, ihTR, ihF⟩ := ih
      refine ⟨?_, ?_, ?_, ?_, ?_⟩
      · intro s v r h
        have h' : (match parseT vars f s with
            | none => none
            | some (v0, r0) => parseERest vars f v0 r0) = some (v, r) := h
        cases hT : parseT vars f s with
        | none => rw [hT] at h'; exact absurd h' (by simp)
        | some p =>
            obtain ⟨v0, r0⟩ := p
            rw [hT] at h'
            show (match parseT vars (f + 1) s with
              | none => none
              | some (v0, r0) => parseERest vars (f + 1) v0 r0) = some (v, r)
            rw [ihT _ _ _ hT]
            exact ihER _ _ _ _ h'
      · intro a s v r h
        cases s with
        | nil => exact h
        | cons c rest =>
            by_cases hc1 : c = '+'
            · subst hc1
              have h' : (match parseT vars f rest with
                  | none => none
                  | some (v0, r2) => parseERest vars f (a + v0) r2) = some (v, r) := h
              cases hT : parseT vars f rest with
              | none => rw [hT] at h'; exact absurd h' (by simp)
              | some p =>
                  obtain ⟨v0, r2⟩ := p
                  rw [hT] at h'
                  show (match parseT vars (f + 1) rest with
                    | none => none
                    | some (v0, r2) => parseERest vars (f + 1) (a + v0) r2) = some (v, r)
                  rw [ihT _ _ _ hT]
                  exact ihER _ _ _ _ h'
            · by_cases hc2 : c = '-'
              · subst hc2
                have h' : (match parseT vars f rest with
                    | none => none
                    | some (v0, r2) => parseERest vars f (a - v0) r2) = some (v, r) := h
                cases hT : parseT vars f rest with
                | none => rw [hT] at h'; exact absurd h' (by simp)
                | some p =>
                    obtain ⟨v0, r2⟩ := p
                    rw [hT] at h'
                    show (match parseT vars (f + 1) rest with
                      | none => none
                      | some (v0, r2) => parseERest vars (f + 1) (a - v0) r2) = some (v, r)
                    rw [ihT _ _ _ hT]
                    exact ihER _ _ _ _ h'
              · rw [parseERest_stop vars f a rest hc1 hc2] at h
                rw [parseERest_stop vars (f + 1) a rest hc1 hc2]
                exact h
      · intro s v r h
        have h' : (match parseF vars f s with
            | none => none
            | some (v0, r0) => parseTRest vars f v0 r0) = some (v, r) := h
        cases hF : parseF vars f s with
        | none => rw [hF] at h'; exact absurd h' (by simp)
        | some p =>
            obtain ⟨v0, r0⟩ := p
            rw [hF] at h'
            show (match parseF vars (f + 1) s with
              | none => none
              | some (v0, r0) => parseTRest vars (f + 1) v0 r0) = some (v, r)
            rw [ihF _ _ _ hF]
            exact ihTR _ _ _ _ h'
      · intro a s v r h
        cases s with
        | nil => exact h
        | cons c rest =>
            by_cases hc : c = '*'
            · subst hc
              have h' : (match parseF vars f rest with
                  | none => none
                  | some (v0, r2) => parseTRest vars f (a * v0) r2) = some (v, r) := h
              cases hF : parseF vars f rest with
              | none => rw [hF] at h'; exact absurd h' (by simp)
              | some p =>
                  obtain ⟨v0, r2⟩ := p
                  rw [hF] at h'
                  show (match parseF vars (f + 1) rest with
                    | none => none
                    | some (v0, r2) => parseTRest vars (f + 1) (a * v0) r2) = some (v, r)
                  rw [ihF _ _ _ hF]
                  exact ihTR _ _ _ _ h'
            · rw [parseTRest_stop vars f a rest hc] at h
              rw [parseTRest_stop vars (f + 1) a rest hc]
              exact h
      · intro s v r h
        cases s with
        | nil => exact h
        | cons c rest =>
            by_cases hc1 : c = '-'
            · subst hc1
              have h' : (match parseF vars f rest with
                  | none => none
                  | some (v0, r2) => some (-v0, r2)) = some (v, r) := h
              cases hF : parseF vars f rest with
              | none => rw [hF] at h'; exact absurd h' (by simp)
              | some p =>
                  obtain ⟨v0, r2⟩ := p
                  rw [hF] at h'
                  show (match parseF vars (f + 1) rest with
                    | none => none
                    | some (v0, r2) => some (-v0, r2)) = some (v, r)
                  rw [ihF _ _ _ hF]
                  exact h'
            · by_cases hc2 : c = '+'
              · subst hc2
                exact ihF _ _ _ h
              · by_cases hc3 : c = '('
                · subst hc3
                  have h' : (match parseE vars f rest with
                      | some (v0, ')' :: r2) => some (v0, r2)
                      | _ => none) = some (v, r) := h
                  cases hE : parseE vars f rest with
                  | none => rw [hE] at h'; exact absurd h' (by simp)
                  | some p =>
                      obtain ⟨v0, r2⟩ := p
                      rw [hE] at h'
                      cases r2 with
                      | nil => exact absurd h' (by simp)
                      | cons d r3 =>
                          by_cases hd : d = ')'
                          · subst hd
                            show (match parseE vars (f + 1) rest with
                              | some (v0, ')' :: r2) => some (v0, r2)
                              | _ => none) = some (v, r)
                            rw [ihE _ _ _ hE]
                            exact h'
                          · exfalso
                            split at h'
                            · next heq =>
                                exact hd (List.cons.inj (Prod.mk.inj
                                  (Option.some.inj heq).symm).2).1.symm
                            · exact absurd h' (by simp)
                · rw [parseF_other vars f rest hc1 hc2 hc3] at h
                  rw [parseF_other vars (f + 1) rest hc1 hc2 hc3]
                  exact h

theorem parseT_mono (vars : VarsMap) {f g : ℕ} {s : List Char} {v : ℚ}
    {r : List Char} (hfg : f ≤ g) (h : parseT vars f s = some (v, r)) :
    parseT vars g s = some (v, r) := by
  induction g with
  | zero =>
      have : f = 0 := Nat.le_zero.mp hfg
      subst this
      exact h
  | succ g ih =>
      rcases Nat.lt_or_ge f (g + 1) with hlt | hge
      · exact (parse_fuel_succ vars g).2.2.1 _ _ _ (ih (Nat.lt_succ_iff.mp hlt))
      · have : f = g + 1 := Nat.le_antisymm hfg hge
        subst this
        exact h

theorem parseF_mono (vars : VarsMap) {f g : ℕ} {s : List Char} {v : ℚ}
    {r : List Char} (hfg : f ≤ g) (h : parseF vars f s = some (v, r)) :
    parseF vars g s = some (v, r) := by
  induction g with
  | zero =>
      have : f = 0 := Nat.le_zero.mp hfg
      subst this
      exact h
  | succ g ih =>
      rcases Nat.lt_or_ge f (g + 1) with hlt | hge
      · exact (parse_fuel_succ vars g).2.2.2.2 _ _ _ (ih (Nat.lt_succ_iff.mp hlt))
      · have : f = g + 1 := Nat.le_antisymm hfg hge
        subst this
        exact h

theorem parseTRest_mono (vars : VarsMap) {f g : ℕ} {a : ℚ} {s : List Char}
    {v : ℚ} {r : List Char} (hfg : f ≤ g)
    (h : parseTRest vars f a s = some (v, r)) :
    parseTRest vars g a s = some (v, r) := by
  induction g with
  | zero =>
      have : f = 0 := Nat.le_zero.mp hfg
      subst this
      exact h
  | succ g ih =>
      rcases Nat.lt_or_ge f (g + 1) with hlt | hge
      · exact (parse_fuel_succ vars g).2.2.2.1 _ _ _ _ (ih (Nat.lt_succ_iff.mp hlt))
      · have : f = g + 1 := Nat.le_antisymm hfg hge
        subst this
        exact h

theorem parseTRest_scale (vars : VarsMap) : ∀ (f : ℕ) (a : ℚ) (s : List Char)
    (v : ℚ) (r : List Char) (c : ℚ), parseTRest vars f a s = some (v, r) →
    parseTRest vars f (c * a) s = some (c * v, r) := by
  intro f
  induction f with
  | zero => intro a s v r c h; simp [parseTRest] at h
  | succ f ih =>
      intro a s v r c h
      cases s with
      | nil =>
          have h' : some (a, ([] : List Char)) = some (v, r) := h
          obtain ⟨rfl, rfl⟩ := Prod.mk.inj (Option.some.inj h')
          rfl
      | cons d rest =>
          by_cases hd : d = '*'
          · subst hd
            have h' : (match parseF vars f rest with
                | none => none
                | some (v0, r2) => parseTRest vars f (a * v0) r2) = some (v, r) := h
            cases hF : parseF vars f rest with
            | none => rw [hF] at h'; exact absurd h' (by simp)
            | some p =>
                obtain ⟨v0, r2⟩ := p
                rw [hF] at h'
                show (match parseF vars f rest with
                  | none => none
                  | some (v0, r2) => parseTRest vars f (c * a * v0) r2) = some (c * v, r)
                rw [hF]
                show parseTRest vars f (c * a * v0) r2 = some (c * v, r)
                rw [mul_assoc]
                exact ih (a * v0) r2 v r c h'
          · rw [parseTRest_stop vars f a rest hd] at h
            obtain ⟨rfl, rfl⟩ := Prod.mk.inj (Option.some.inj h)
            rw [parseTRest_stop vars f (c * a) rest hd]

theorem GetLastOperator_append (p : List Char) {s : List Char} {op : QubitOp}
    {rest : List Char} (h : GetLastOperator s = some (op, rest)) :
    GetLastOperator (p ++ s) = some (op, p ++ rest) := by
  simp only [GetLastOperator] at h ⊢
  cases hpos : findLastOf '*' s with
  | none => rw [hpos] at h; exact absurd h (by simp)
  | some pos =>
      simp only [hpos] at h
      simp only [findLastOf_append_some hpos p]
      have hdrop : (p ++ s).drop (p.length + pos + 1) = s.drop (pos + 1) := by
        rw [Nat.add_assoc]
        exact List.drop_append (pos + 1)
      have htake : (p ++ s).take (p.length + pos) = p ++ s.take pos :=
        List.take_append pos
      rw [hdrop, htake]
      cases hidx : findIdxQ (fun ch => !isAlphaChar ch)
          (toUpperCase (s.drop (pos + 1))) with
      | none => rw [hidx] at h; exact absurd h (by simp)
      | some k =>
          simp only [hidx] at h ⊢
          split_ifs at h ⊢ with h1 h2 h3
          all_goals first
            | (obtain ⟨h4, h5⟩ := Prod.mk.inj (Option.some.inj h)
               rw [← h4, ← h5])
            | (exact absurd h (by simp))

theorem findLastOf_lt_length {c : Char} : ∀ {s : List Char} {k : ℕ},
    findLastOf c s = some k → k < s.length := by
  intro s
  induction s with
  | nil => intro k h; simp [findLastOf] at h
  | cons a rest ih =>
      intro k h
      simp only [findLastOf] at h
      cases hr : findLastOf c rest with
      | some j =>
          rw [hr] at h
          obtain rfl := Option.some.inj h
          have := ih hr
          simp only [List.length_cons]
          omega
      | none =>
          rw [hr] at h
          by_cases ha : a = c
          · rw [if_pos ha] at h
            obtain rfl := Option.some.inj h
            simp
          · rw [if_neg ha] at h
            exact absurd h (by simp)

theorem GetLastOperator_shrink {s rest : List Char} {op : QubitOp}
    (h : GetLastOperator s = some (op, rest)) : rest.length < s.length := by
  simp only [GetLastOperator] at h
  cases hpos : findLastOf '*' s with
  | none => rw [hpos] at h; exact absurd h (by simp)
  | some pos =>
      simp only [hpos] at h
      have hlt : pos < s.length := findLastOf_lt_length hpos
      cases hidx : findIdxQ (fun ch => !isAlphaChar ch)
          (toUpperCase (s.drop (pos + 1))) with
      | none => rw [hidx] at h; exact absurd h (by simp)
      | some k =>
          simp only [hidx] at h
          split_ifs at h with h1 h2 h3
          all_goals first
            | (obtain ⟨h4, h5⟩ := Prod.mk.inj (Option.some.inj h)
               rw [← h5]
               simpa using hlt)
            | (exact absurd h (by simp))

theorem peelOps_mirror (p : List Char) : ∀ (f : ℕ) (g : ℕ) (s : List Char)
    (acc ops : List QubitOp) (r : List Char),
    s.length < f → s.length < g →
    peelOps f s acc s = (ops, r) →
    GetLastOperator (p ++ r) = none →
    peelOps g (p ++ s) acc (p ++ s) = (ops, p ++ r) := by
  intro f
  induction f with
  | zero => intro g s acc ops r h0 _ _ _; omega
  | succ f ih =>
      intro g s acc ops r h0 hg hpeel hstop
      cases hglo : GetLastOperator s with
      | none =>
          have h2 : peelOps (f + 1) s acc s = (acc, s) := by
            simp [peelOps, hglo]
          rw [h2] at hpeel
          obtain ⟨rfl, rfl⟩ := Prod.mk.inj hpeel
          cases g with
          | zero => omega
          | succ g => simp [peelOps, hstop]
      | some pr =>
          obtain ⟨op, rest⟩ := pr
          have h2 : peelOps (f + 1) s acc s
              = peelOps f rest (acc ++ [op]) rest := by
            simp [peelOps, hglo]
          rw [h2] at hpeel
          have hlen : rest.length < s.length := GetLastOperator_shrink hglo
          cases g with
          | zero => omega
          | succ g =>
              have hstep : GetLastOperator (p ++ s) = some (op, p ++ rest) :=
                GetLastOperator_append p hglo
              have h3 : peelOps (g + 1) (p ++ s) acc (p ++ s)
                  = peelOps g (p ++ rest) (acc ++ [op]) (p ++ rest) := by
                simp [peelOps, hstep]
              rw [h3]
              exact ih g rest (acc ++ [op]) ops r (by omega) (by omega)
                hpeel hstop

theorem opsRem_append (p : List Char) {s : List Char} {ops : List QubitOp}
    {r : List Char} (h : opsRem s = (ops, r))
    (hfst : GetLastOperator s ≠ none)
    (hstop : GetLastOperator (p ++ r) = none) :
    opsRem (p ++ s) = (ops, p ++ r) := by
  obtain ⟨pr, hglo⟩ := Option.ne_none_iff_exists'.mp hfst
  obtain ⟨op0, rest0⟩ := pr
  have h1 : peelOps (s.length + 1) s [] [] = peelOps s.length rest0 [op0] rest0 := by
    simp [peelOps, hglo]
  rw [opsRem, h1] at h
  have hlen0 : rest0.length < s.length := GetLastOperator_shrink hglo
  have hstep : GetLastOperator (p ++ s) = some (op0, p ++ rest0) :=
    GetLastOperator_append p hglo
  have h2 : peelOps ((p ++ s).length + 1) (p ++ s) [] []
      = peelOps (p ++ s).length (p ++ rest0) [op0] (p ++ rest0) := by
    simp [peelOps, hstep]
  rw [opsRem, h2]
  exact peelOps_mirror p s.length (p ++ s).length rest0 [op0] ops r hlen0
    (by simp only [List.length_append]; omega) h hstop

theorem get?_mid (A B : List Char) (c : Char) :
    (A ++ c :: B).get? A.length = some c := by
  rw [List.get?_eq_getElem?, List.getElem?_append_right (Nat.le_refl _)]
  simp

theorem getLast?_wrap (pre W : List Char) :
    (pre ++ '(' :: (W ++ [')'])).getLast? = some ')' := by
  rw [getLast?_app (by simp)]
  have h2 : ('(' :: (W ++ [')'])).getLast? = (W ++ [')']).getLast? :=
    @getLast?_app ['('] _ (by simp)
  rw [h2, List.getLast?_concat]

theorem UnwrapOp_split (pre A B : List Char) (sgn : Char)
    (hsgn : sgn = '+' ∨ sgn = '-')
    (hAp : ∀ c ∈ A, c ≠ '(' ∧ c ≠ ')')
    (hBp : ∀ c ∈ B, c ≠ '(' ∧ c ≠ ')')
    (hplusA : ∀ c ∈ A, c ≠ '+')
    (hminus : sgn = '-' → (∀ c ∈ B, c ≠ '+') ∧ (∀ c ∈ A, c ≠ '-')) :
    UnwrapOpExpresion (pre ++ '(' :: ((A ++ sgn :: B) ++ [')']))
      = [pre ++ A, ('(' :: sgn :: ("1.0)*").toList) ++ (pre ++ B)] := by
  have hsgnp : sgn ≠ '(' ∧ sgn ≠ ')' := by
    rcases hsgn with rfl | rfl <;> exact ⟨by decide, by decide⟩
  have hlast : (pre ++ '(' :: ((A ++ sgn :: B) ++ [')'])).getLast? = some ')' :=
    getLast?_wrap pre (A ++ sgn :: B)
  have hpos : findLastOf '(' (pre ++ '(' :: ((A ++ sgn :: B) ++ [')']))
      = some pre.length := by
    refine findLastOf_last_pos pre ?_
    intro d hd
    rcases List.mem_append.mp hd with hd | hd
    · rcases List.mem_append.mp hd with hd | hd
      · exact (hAp d hd).1
      · rcases List.mem_cons.mp hd with rfl | hd
        · exact hsgnp.1
        · exact (hBp d hd).1
    · simp only [List.mem_singleton] at hd
      subst hd
      decide
  have htake : (pre ++ '(' :: ((A ++ sgn :: B) ++ [')'])).take pre.length
      = pre := List.take_left pre _
  have hdrop : (pre ++ '(' :: ((A ++ sgn :: B) ++ [')'])).drop (pre.length + 1)
      = (A ++ sgn :: B) ++ [')'] := drop_app_cons pre '(' _
  have hdl : ((A ++ sgn :: B) ++ [')']).dropLast = A ++ sgn :: B :=
    List.dropLast_concat
  have hc1 : findIdxQ (fun ch => ch = '(') (A ++ sgn :: B) = none := by
    refine findIdxQ_none _ ?_
    intro c hc
    rcases List.mem_append.mp hc with hc | hc
    · simp [(hAp c hc).1]
    · rcases List.mem_cons.mp hc with rfl | hc
      · simp [hsgnp.1]
      · simp [(hBp c hc).1]
  have hc2 : findIdxQ (fun ch => ch = ')') (A ++ sgn :: B) = none := by
    refine findIdxQ_none _ ?_
    intro c hc
    rcases List.mem_append.mp hc with hc | hc
    · simp [(hAp c hc).2]
    · rcases List.mem_cons.mp hc with rfl | hc
      · simp [hsgnp.2]
      · simp [(hBp c hc).2]
  have htakeA : (A ++ sgn :: B).take A.length = A := List.take_left A _
  have hdropB : (A ++ sgn :: B).drop (A.length + 1) = B := drop_app_cons A sgn B
  have hget : (A ++ sgn :: B).get? A.length = some sgn := get?_mid A B sgn
  have hpm : (match findIdxQ (fun ch => ch = '+') (A ++ sgn :: B) with
      | some k => some k
      | none => findIdxQ (fun ch => ch = '-') (A ++ sgn :: B))
      = some A.length := by
    rcases hsgn with rfl | rfl
    · have h1 : findIdxQ (fun ch => ch = '+') (A ++ '+' :: B)
          = some A.length := by
        rw [findIdxQ_append_left A _ (fun c hc => by simp [hplusA c hc]),
          findIdxQ_cons_true B (by simp)]
        simp
      rw [h1]
    · obtain ⟨hBp2, hAm⟩ := hminus rfl
      have h1 : findIdxQ (fun ch => ch = '+') (A ++ '-' :: B) = none := by
        refine findIdxQ_none _ ?_
        intro c hc
        rcases List.mem_append.mp hc with hc | hc
        · simp [hplusA c hc]
        · rcases List.mem_cons.mp hc with rfl | hc
          · decide
          · simp [hBp2 c hc]
      have h2 : findIdxQ (fun ch => ch = '-') (A ++ '-' :: B)
          = some A.length := by
        rw [findIdxQ_append_left A _ (fun c hc => by simp [hAm c hc]),
          findIdxQ_cons_true B (by simp)]
        simp
      rw [h1, h2]
  simp only [UnwrapOpExpresion, hlast, hpos, htake, hdrop, hdl, hc1, hc2,
    Option.isSome_none, Bool.or_self, Bool.false_eq_true, if_false, hpm,
    htakeA, hdropB, hget, Option.getD_some, ne_eq, not_true_eq_false,
    reduceIte]
  simp [List.append_assoc]

theorem HamTimeDepFS_flat (vars : VarsMap) (f : ℕ) (e ch : List Char)
    (hws : noWS e) (hbar : ∀ c ∈ e, c ≠ '|') (hch : goodChannel ch)
    (hlast : e.getLast? ≠ some ')') :
    HamTimeDepFS vars (f + 1) (e ++ '|' :: '|' :: ch)
      = match TryEvaluateExpression (opsRem e).2 vars with
        | none => none
        | some v =>
            some (.timeDependent (toUpperCase ch) v (opsRem e).1.reverse) := by
  have hid := noWS_channel_input hws (goodChannel_noWS hch)
  have hfind : findSublist sepBar (e ++ '|' :: '|' :: ch) = some e.length :=
    findSublist_append_pos e ('|' :: '|' :: ch) hbar (by simp [List.isPrefixOf])
  have hdrop : (e ++ '|' :: '|' :: ch).drop (e.length + 2) = ch :=
    drop_app_cons2 e '|' '|' ch
  have htake : (e ++ '|' :: '|' :: ch).take e.length = e := List.take_left e _
  simp only [HamTimeDepFS, hid, hfind, hdrop, htake, goodChannel_ok hch,
    Bool.not_true, Bool.false_eq_true, if_false, if_neg hlast, reduceIte]

theorem HamTimeDepFS_unwrap (vars : VarsMap) (f : ℕ) (pre A B Ch : List Char)
    (sgn : Char) (hsgn : sgn = '+' ∨ sgn = '-')
    (hWSpre : noWS pre) (hWSA : noWS A) (hWSB : noWS B)
    (hbarPre : ∀ c ∈ pre, c ≠ '|') (hbarA : ∀ c ∈ A, c ≠ '|')
    (hbarB : ∀ c ∈ B, c ≠ '|')
    (hAp : ∀ c ∈ A, c ≠ '(' ∧ c ≠ ')')
    (hBp : ∀ c ∈ B, c ≠ '(' ∧ c ≠ ')')
    (hplusA : ∀ c ∈ A, c ≠ '+')
    (hminus : sgn = '-' → (∀ c ∈ B, c ≠ '+') ∧ (∀ c ∈ A, c ≠ '-'))
    (hch : goodChannel Ch) :
    HamTimeDepFS vars (f + 1)
        ((pre ++ '(' :: ((A ++ sgn :: B) ++ [')'])) ++ '|' :: '|' :: Ch)
      = match HamTimeDepFS vars f ((pre ++ A) ++ '|' :: '|' :: Ch),
              HamTimeDepFS vars f
                ((('(' :: sgn :: ("1.0)*").toList) ++ (pre ++ B))
                  ++ '|' :: '|' :: Ch) with
        | some t1, some t2 => some (.sum [t1, t2])
        | _, _ => none := by
  have hsgnWS : isSpaceChar sgn = false := by
    rcases hsgn with rfl | rfl <;> decide
  have hsgnBar : sgn ≠ '|' := by
    rcases hsgn with rfl | rfl <;> decide
  have hwsOp : noWS (pre ++ '(' :: ((A ++ sgn :: B) ++ [')'])) := by
    refine noWS_append.mpr ⟨hWSpre, noWS_cons.mpr ⟨by decide, ?_⟩⟩
    refine noWS_append.mpr ⟨noWS_append.mpr ⟨hWSA,
      noWS_cons.mpr ⟨hsgnWS, hWSB⟩⟩, by decide⟩
  have hbarOp : ∀ c ∈ pre ++ '(' :: ((A ++ sgn :: B) ++ [')']), c ≠ '|' := by
    intro c hc
    rcases List.mem_append.mp hc with hc | hc
    · exact hbarPre c hc
    · rcases List.mem_cons.mp hc with rfl | hc
      · decide
      · rcases List.mem_append.mp hc with hc | hc
        · rcases List.mem_append.mp hc with hc | hc
          · exact hbarA c hc
          · rcases List.mem_cons.mp hc with rfl | hc
            · exact hsgnBar
            · exact hbarB c hc
        · simp only [List.mem_singleton] at hc
          subst hc
          decide
  have hid := noWS_channel_input hwsOp (goodChannel_noWS hch)
  have hfind : findSublist sepBar
      ((pre ++ '(' :: ((A ++ sgn :: B) ++ [')'])) ++ '|' :: '|' :: Ch)
      = some (pre ++ '(' :: ((A ++ sgn :: B) ++ [')'])).length :=
    findSublist_append_pos _ ('|' :: '|' :: Ch) hbarOp (by simp [List.isPrefixOf])
  have hdrop2 : ((pre ++ '(' :: ((A ++ sgn :: B) ++ [')'])) ++ '|' :: '|' :: Ch).drop
      ((pre ++ '(' :: ((A ++ sgn :: B) ++ [')'])).length + 2) = Ch :=
    drop_app_cons2 _ '|' '|' Ch
  have htake : ((pre ++ '(' :: ((A ++ sgn :: B) ++ [')'])) ++ '|' :: '|' :: Ch).take
      (pre ++ '(' :: ((A ++ sgn :: B) ++ [')'])).length
      = pre ++ '(' :: ((A ++ sgn :: B) ++ [')']) := List.take_left _ _
  have hdropSep : ((pre ++ '(' :: ((A ++ sgn :: B) ++ [')'])) ++ '|' :: '|' :: Ch).drop
      (pre ++ '(' :: ((A ++ sgn :: B) ++ [')'])).length = '|' :: '|' :: Ch :=
    List.drop_left _ _
  have hlastOp : (pre ++ '(' :: ((A ++ sgn :: B) ++ [')'])).getLast? = some ')' :=
    getLast?_wrap pre (A ++ sgn :: B)
  have hunwrap := UnwrapOp_split pre A B sgn hsgn hAp hBp hplusA hminus
  simp only [HamTimeDepFS, hid, hfind, hdrop2, htake, hdropSep,
    goodChannel_ok hch, Bool.not_true, Bool.false_eq_true, if_false,
    hlastOp, reduceIte, hunwrap]

theorem TryEval_of_parseT (vars : VarsMap) {r : List Char} {v : ℚ}
    (hT : parseT vars (4 * r.length + 7) r = some (v, [])) :
    TryEvaluateExpression r vars = some v := by
  have hE : parseE vars (4 * r.length + 8) r = some (v, []) := by
    show (match parseT vars (4 * r.length + 7) r with
      | none => none
      | some (v0, r0) => parseERest vars (4 * r.length + 7) v0 r0) = some (v, [])
    rw [hT]
    rfl
  show (match parseE vars (4 * r.length + 8) r with
    | some (v0, []) => some v0
    | _ => none) = some v
  rw [hE]

theorem parseAtom_ten (vars : VarsMap) (r : List Char) :
    parseAtom vars ('1' :: '.' :: '0' :: ')' :: '*' :: r)
      = some (1, ')' :: '*' :: r) := by
  have hnum : parseNumber ('1' :: '.' :: '0' :: ')' :: '*' :: r)
      = some (1, ')' :: '*' :: r) := by
    show some ((stoiNat ['1'] : ℚ) + (stoiNat ['0'] : ℚ) / ((10 : ℚ) ^ (['0'] : List Char).length),
        ')' :: '*' :: r) = some (1, ')' :: '*' :: r)
    norm_num [stoiNat, show ('1'.toNat - 48 : ℕ) = 1 from by decide,
      show ('0'.toNat - 48 : ℕ) = 0 from by decide]
  show (match parseNumber ('1' :: '.' :: '0' :: ')' :: '*' :: r) with
    | some res => some res
    | none =>
        match parseIdentName ('1' :: '.' :: '0' :: ')' :: '*' :: r) with
        | none => none
        | some (name, rest) =>
            match vars.lookup name with
            | none => none
            | some v => some (v, rest)) = some (1, ')' :: '*' :: r)
  rw [hnum]

theorem TryEval_signed (vars : VarsMap) {r : List Char} {v : ℚ}
    (hT : parseT vars (4 * r.length + 7) r = some (v, [])) (sgn : Char)
    (hsgn : sgn = '+' ∨ sgn = '-') :
    TryEvaluateExpression (('(' :: sgn :: ("1.0)*").toList) ++ r) vars
      = some ((if sgn = '-' then -1 else 1) * v) := by
  have hT' : (match parseF vars (4 * r.length + 6) r with
      | none => none
      | some (v0, r0) => parseTRest vars (4 * r.length + 6) v0 r0)
      = some (v, []) := hT
  cases hF : parseF vars (4 * r.length + 6) r with
  | none => rw [hF] at hT'; exact absurd hT' (by simp)
  | some p =>
      obtain ⟨f1, r1⟩ := p
      rw [hF] at hT'
      have hTR : parseTRest vars (4 * r.length + 6) f1 r1 = some (v, []) := hT'
      have hF33 : parseF vars (4 * r.length + 33) r = some (f1, r1) :=
        parseF_mono vars (by omega) hF
      have hA1 : parseF vars (4 * r.length + 30) ('1' :: '.' :: '0' :: ')' :: '*' :: r)
          = some (1, ')' :: '*' :: r) := by
        rw [parseF_other vars (4 * r.length + 29) _ (by decide) (by decide) (by decide)]
        exact parseAtom_ten vars r
      obtain ⟨sv, hsv⟩ : ∃ sv : ℚ, (if sgn = '-' then (-1 : ℚ) else 1) = sv :=
        ⟨_, rfl⟩
      have hA2 : parseF vars (4 * r.length + 31) (sgn :: '1' :: '.' :: '0' :: ')' :: '*' :: r)
          = some (sv, ')' :: '*' :: r) := by
        rcases hsgn with rfl | rfl
        · show parseF vars (4 * r.length + 30) ('1' :: '.' :: '0' :: ')' :: '*' :: r)
            = some (sv, ')' :: '*' :: r)
          rw [hA1, ← hsv]
          simp
        · show (match parseF vars (4 * r.length + 30) ('1' :: '.' :: '0' :: ')' :: '*' :: r) with
            | none => none
            | some (v0, r2) => some (-v0, r2)) = some (sv, ')' :: '*' :: r)
          rw [hA1, ← hsv]
          simp
      have hA3 : parseT vars (4 * r.length + 32) (sgn :: '1' :: '.' :: '0' :: ')' :: '*' :: r)
          = some (sv, ')' :: '*' :: r) := by
        show (match parseF vars (4 * r.length + 31) (sgn :: '1' :: '.' :: '0' :: ')' :: '*' :: r) with
          | none => none
          | some (v0, r0) => parseTRest vars (4 * r.length + 31) v0 r0)
          = some (sv, ')' :: '*' :: r)
        rw [hA2]
        show parseTRest vars (4 * r.length + 31) sv (')' :: '*' :: r)
          = some (sv, ')' :: '*' :: r)
        exact parseTRest_stop vars _ sv _ (by decide)
      have hA4 : parseE vars (4 * r.length + 33) (sgn :: '1' :: '.' :: '0' :: ')' :: '*' :: r)
          = some (sv, ')' :: '*' :: r) := by
        show (match parseT vars (4 * r.length + 32) (sgn :: '1' :: '.' :: '0' :: ')' :: '*' :: r) with
          | none => none
          | some (v0, r0) => parseERest vars (4 * r.length + 32) v0 r0)
          = some (sv, ')' :: '*' :: r)
        rw [hA3]
        show parseERest vars (4 * r.length + 32) sv (')' :: '*' :: r)
          = some (sv, ')' :: '*' :: r)
        exact parseERest_stop vars _ sv _ (by decide) (by decide)
      have hA5 : parseF vars (4 * r.length + 34)
          ('(' :: sgn :: '1' :: '.' :: '0' :: ')' :: '*' :: r)
          = some (sv, '*' :: r) := by
        show (match parseE vars (4 * r.length + 33) (sgn :: '1' :: '.' :: '0' :: ')' :: '*' :: r) with
          | some (v0, ')' :: r2) => some (v0, r2)
          | _ => none) = some (sv, '*' :: r)
        rw [hA4]
        rfl
      have h2 : parseTRest vars (4 * r.length + 6) (sv * f1) r1
          = some (sv * v, []) := parseTRest_scale vars _ f1 r1 v [] sv hTR
      have h3 : parseTRest vars (4 * r.length + 33) (sv * f1) r1
          = some (sv * v, []) := parseTRest_mono vars (by omega) h2
      have h4 : parseTRest vars (4 * r.length + 34) sv ('*' :: r)
          = some (sv * v, []) := by
        show (match parseF vars (4 * r.length + 33) r with
          | none => none
          | some (v0, r2) => parseTRest vars (4 * r.length + 33) (sv * v0) r2)
          = some (sv * v, [])
        rw [hF33]
        show parseTRest vars (4 * r.length + 33) (sv * f1) r1 = some (sv * v, [])
        exact h3
      have hA6 : parseT vars (4 * r.length + 35)
          ('(' :: sgn :: '1' :: '.' :: '0' :: ')' :: '*' :: r)
          = some (sv * v, []) := by
        show (match parseF vars (4 * r.length + 34)
            ('(' :: sgn :: '1' :: '.' :: '0' :: ')' :: '*' :: r) with
          | none => none
          | some (v0, r0) => parseTRest vars (4 * r.length + 34) v0 r0)
          = some (sv * v, [])
        rw [hA5]
        show parseTRest vars (4 * r.length + 34) sv ('*' :: r) = some (sv * v, [])
        exact h4
      have hA7 : parseE vars (4 * r.length + 36)
          ('(' :: sgn :: '1' :: '.' :: '0' :: ')' :: '*' :: r)
          = some (sv * v, []) := by
        show (match parseT vars (4 * r.length + 35)
            ('(' :: sgn :: '1' :: '.' :: '0' :: ')' :: '*' :: r) with
          | none => none
          | some (v0, r0) => parseERest vars (4 * r.length + 35) v0 r0)
          = some (sv * v, [])
        rw [hA6]
        rfl
      have hfuel : 4 * (('(' :: sgn :: ("1.0)*").toList) ++ r).length + 8
          = 4 * r.length + 36 := by
        simp only [List.cons_append, List.length_cons, List.length_append]
        simp [String.toList]
        omega
      show (match parseE vars (4 * (('(' :: sgn :: ("1.0)*").toList) ++ r).length + 8)
          (('(' :: sgn :: ("1.0)*").toList) ++ r) with
        | some (v0, []) => some v0
        | _ => none) = some ((if sgn = '-' then -1 else 1) * v)
      rw [hfuel, hsv]
      have hw : ('(' :: sgn :: ("1.0)*").toList) ++ r
          = '(' :: sgn :: '1' :: '.' :: '0' :: ')' :: '*' :: r := rfl
      rw [hw, hA7]

/-- C4: parsing `c*(A pm B) || Ch` (here `pre` is the `c*` prefix before the
opening parenthesis, `sgn` the connective, the character-class hypotheses
delimit the claimed input form) produces the same result as combining the
parses of `c*A || Ch` and `(pm1.0)*c*B || Ch`; every successful parse is a sum
of exactly two children, each a time-dependent term bound to channel `Ch`;
and whenever the coefficient remainder of `c*B` evaluates as a product (the
reading forced by the form `c*(A pm B)`) and the sign prefix is not itself
mistakable for an operator factor, the second child carries the same
operators as `c*B || Ch` with its coefficient multiplied by `-1` exactly when
the connective is minus. -/
theorem C4_distribution (vars : VarsMap) (pre A B Ch : List Char) (sgn : Char)
    (hsgn : sgn = '+' ∨ sgn = '-')
    (hWSpre : noWS pre) (hWSA : noWS A) (hWSB : noWS B)
    (hbarPre : ∀ c ∈ pre, c ≠ '|') (hbarA : ∀ c ∈ A, c ≠ '|')
    (hbarB : ∀ c ∈ B, c ≠ '|')
    (hAp : ∀ c ∈ A, c ≠ '(' ∧ c ≠ ')') (hBp : ∀ c ∈ B, c ≠ '(' ∧ c ≠ ')')
    (hplusA : ∀ c ∈ A, c ≠ '+')
    (hminus : sgn = '-' → (∀ c ∈ B, c ≠ '+') ∧ (∀ c ∈ A, c ≠ '-'))
    (hAne : A ≠ []) (hBne : B ≠ [])
    (hch : goodChannel Ch) :
    (timeDepParse ((pre ++ '(' :: ((A ++ sgn :: B) ++ [')'])) ++ '|' :: '|' :: Ch) vars
      = match timeDepParse ((pre ++ A) ++ '|' :: '|' :: Ch) vars,
              timeDepParse ((('(' :: sgn :: ("1.0)*").toList) ++ (pre ++ B))
                ++ '|' :: '|' :: Ch) vars with
        | some t1, some t2 => some (HamiltonianTerm.sum [t1, t2])
        | _, _ => none)
    ∧ (∀ t, timeDepParse ((pre ++ '(' :: ((A ++ sgn :: B) ++ [')']))
          ++ '|' :: '|' :: Ch) vars = some t →
        ∃ v1 o1 v2 o2, t = HamiltonianTerm.sum
          [HamiltonianTerm.timeDependent (toUpperCase Ch) v1 o1,
           HamiltonianTerm.timeDependent (toUpperCase Ch) v2 o2])
    ∧ (∀ opsB r v, opsRem (pre ++ B) = (opsB, r) →
        parseT vars (4 * r.length + 7) r = some (v, []) →
        GetLastOperator (('(' :: sgn :: ("1.0)*").toList) ++ r) = none →
        timeDepParse ((pre ++ B) ++ '|' :: '|' :: Ch) vars
          = some (HamiltonianTerm.timeDependent (toUpperCase Ch) v opsB.reverse)
        ∧ timeDepParse ((('(' :: sgn :: ("1.0)*").toList) ++ (pre ++ B))
            ++ '|' :: '|' :: Ch) vars
          = some (HamiltonianTerm.timeDependent (toUpperCase Ch)
              ((if sgn = '-' then -1 else 1) * v) opsB.reverse)) := by
  have hsgnWS : isSpaceChar sgn = false := by
    rcases hsgn with rfl | rfl <;> decide
  have hsgnBar : sgn ≠ '|' := by
    rcases hsgn with rfl | rfl <;> decide
  -- last characters of the flattened operator expressions
  have hlastA : (pre ++ A).getLast? ≠ some ')' := by
    rw [getLast?_app hAne]
    cases hg : A.getLast? with
    | none => simp
    | some a =>
        have ha := (hAp a (List.mem_of_getLast?_eq_some hg)).2
        simp [ha]
  have hlastPB : (pre ++ B).getLast? ≠ some ')' := by
    rw [getLast?_app hBne]
    cases hg : B.getLast? with
    | none => simp
    | some b =>
        have hb := (hBp b (List.mem_of_getLast?_eq_some hg)).2
        simp [hb]
  have hPBne : pre ++ B ≠ [] := by
    intro hcon
    exact hBne (List.append_eq_nil.mp hcon).2
  have hlastSB : ((('(' :: sgn :: ("1.0)*").toList) ++ (pre ++ B))).getLast?
      ≠ some ')' := by
    rw [getLast?_app hPBne]
    exact hlastPB
  -- whitespace and bar freedom of the combined strings
  have hWSPA : noWS (pre ++ A) := noWS_append.mpr ⟨hWSpre, hWSA⟩
  have hWSPB : noWS (pre ++ B) := noWS_append.mpr ⟨hWSpre, hWSB⟩
  have hWSSB : noWS (('(' :: sgn :: ("1.0)*").toList) ++ (pre ++ B)) := by
    refine noWS_append.mpr ⟨?_, hWSPB⟩
    refine noWS_cons.mpr ⟨by decide, noWS_cons.mpr ⟨hsgnWS, by decide⟩⟩
  have hbarPA : ∀ c ∈ pre ++ A, c ≠ '|' := by
    intro c hc
    rcases List.mem_append.mp hc with hc | hc
    · exact hbarPre c hc
    · exact hbarA c hc
  have hbarPB : ∀ c ∈ pre ++ B, c ≠ '|' := by
    intro c hc
    rcases List.mem_append.mp hc with hc | hc
    · exact hbarPre c hc
    · exact hbarB c hc
  have hbarSB : ∀ c ∈ (('(' :: sgn :: ("1.0)*").toList) ++ (pre ++ B)),
      c ≠ '|' := by
    intro c hc
    rcases List.mem_append.mp hc with hc | hc
    · rcases List.mem_cons.mp hc with rfl | hc
      · decide
      · rcases List.mem_cons.mp hc with rfl | hc
        · exact hsgnBar
        · exact (by decide : ∀ x ∈ ("1.0)*").toList, x ≠ '|') c hc
    · exact hbarPB c hc
  -- flat characterizations of the three channel-bound sub-inputs
  have hflat1 : timeDepParse ((pre ++ A) ++ '|' :: '|' :: Ch) vars
      = match TryEvaluateExpression (opsRem (pre ++ A)).2 vars with
        | none => none
        | some v => some (.timeDependent (toUpperCase Ch) v
            (opsRem (pre ++ A)).1.reverse) := by
    show HamTimeDepFS vars (((pre ++ A) ++ '|' :: '|' :: Ch).length + 1)
        ((pre ++ A) ++ '|' :: '|' :: Ch) = _
    exact HamTimeDepFS_flat vars _ _ _ hWSPA hbarPA hch hlastA
  have hflat2 : timeDepParse ((('(' :: sgn :: ("1.0)*").toList) ++ (pre ++ B))
      ++ '|' :: '|' :: Ch) vars
      = match TryEvaluateExpression
          (opsRem (('(' :: sgn :: ("1.0)*").toList) ++ (pre ++ B))).2 vars with
        | none => none
        | some v => some (.timeDependent (toUpperCase Ch) v
            (opsRem (('(' :: sgn :: ("1.0)*").toList) ++ (pre ++ B))).1.reverse) := by
    show HamTimeDepFS vars (((('(' :: sgn :: ("1.0)*").toList) ++ (pre ++ B))
        ++ '|' :: '|' :: Ch).length + 1) _ = _
    exact HamTimeDepFS_flat vars _ _ _ hWSSB hbarSB hch hlastSB
  have hflatB : timeDepParse ((pre ++ B) ++ '|' :: '|' :: Ch) vars
      = match TryEvaluateExpression (opsRem (pre ++ B)).2 vars with
        | none => none
        | some v => some (.timeDependent (toUpperCase Ch) v
            (opsRem (pre ++ B)).1.reverse) := by
    show HamTimeDepFS vars (((pre ++ B) ++ '|' :: '|' :: Ch).length + 1)
        ((pre ++ B) ++ '|' :: '|' :: Ch) = _
    exact HamTimeDepFS_flat vars _ _ _ hWSPB hbarPB hch hlastPB
  -- the distribution equation
  have hk : ((pre ++ '(' :: ((A ++ sgn :: B) ++ [')'])) ++ '|' :: '|' :: Ch).length
      = ((pre ++ '(' :: ((A ++ sgn :: B) ++ [')'])).length + Ch.length + 1) + 1 := by
    simp only [List.length_append, List.length_cons]
    omega
  have hmain : timeDepParse ((pre ++ '(' :: ((A ++ sgn :: B) ++ [')']))
      ++ '|' :: '|' :: Ch) vars
      = match timeDepParse ((pre ++ A) ++ '|' :: '|' :: Ch) vars,
              timeDepParse ((('(' :: sgn :: ("1.0)*").toList) ++ (pre ++ B))
                ++ '|' :: '|' :: Ch) vars with
        | some t1, some t2 => some (HamiltonianTerm.sum [t1, t2])
        | _, _ => none := by
    show HamTimeDepFS vars (((pre ++ '(' :: ((A ++ sgn :: B) ++ [')']))
        ++ '|' :: '|' :: Ch).length + 1) _ = _
    rw [HamTimeDepFS_unwrap vars _ pre A B Ch sgn hsgn hWSpre hWSA hWSB
      hbarPre hbarA hbarB hAp hBp hplusA hminus hch, hk]
    rw [HamTimeDepFS_flat vars _ _ _ hWSPA hbarPA hch hlastA,
      HamTimeDepFS_flat vars _ _ _ hWSSB hbarSB hch hlastSB,
      hflat1, hflat2]
  refine ⟨hmain, ?_, ?_⟩
  · intro t ht
    rw [hmain] at ht
    cases h1 : timeDepParse ((pre ++ A) ++ '|' :: '|' :: Ch) vars with
    | none => rw [h1] at ht; exact absurd ht (by simp)
    | some t1 =>
        cases h2 : timeDepParse ((('(' :: sgn :: ("1.0)*").toList) ++ (pre ++ B))
            ++ '|' :: '|' :: Ch) vars with
        | none => rw [h1, h2] at ht; exact absurd ht (by simp)
        | some t2 =>
            rw [h1, h2] at ht
            have ht' : some (HamiltonianTerm.sum [t1, t2]) = some t := ht
            obtain rfl := Option.some.inj ht'
            rw [hflat1] at h1
            rw [hflat2] at h2
            cases hv1 : TryEvaluateExpression (opsRem (pre ++ A)).2 vars with
            | none => rw [hv1] at h1; exact absurd h1 (by simp)
            | some v1 =>
                cases hv2 : TryEvaluateExpression
                    (opsRem (('(' :: sgn :: ("1.0)*").toList) ++ (pre ++ B))).2
                    vars with
                | none => rw [hv2] at h2; exact absurd h2 (by simp)
                | some v2 =>
                    rw [hv1] at h1
                    rw [hv2] at h2
                    have h1' : some (HamiltonianTerm.timeDependent (toUpperCase Ch)
                        v1 (opsRem (pre ++ A)).1.reverse) = some t1 := h1
                    have h2' : some (HamiltonianTerm.timeDependent (toUpperCase Ch)
                        v2 (opsRem (('(' :: sgn :: ("1.0)*").toList)
                          ++ (pre ++ B))).1.reverse) = some t2 := h2
                    obtain rfl := Option.some.inj h1'
                    obtain rfl := Option.some.inj h2'
                    exact ⟨v1, _, v2, _, rfl⟩
  · intro opsB r v hrem hT hstop
    have hTEr : TryEvaluateExpression r vars = some v := TryEval_of_parseT vars hT
    have hfst : GetLastOperator (pre ++ B) ≠ none := by
      intro hnone
      rw [opsRem_of_first_fail hnone] at hrem
      obtain ⟨h1, h2⟩ := Prod.mk.inj hrem
      subst h2
      have hz : parseT vars (4 * ([] : List Char).length + 7) ([] : List Char)
          = none := rfl
      rw [hz] at hT
      exact absurd hT (by simp)
    have hOps2 : opsRem (('(' :: sgn :: ("1.0)*").toList) ++ (pre ++ B))
        = (opsB, ('(' :: sgn :: ("1.0)*").toList) ++ r) :=
      opsRem_append _ hrem hfst hstop
    constructor
    · rw [hflatB, hrem]
      show (match TryEvaluateExpression r vars with
        | none => none
        | some v => some (HamiltonianTerm.timeDependent (toUpperCase Ch) v
            opsB.reverse)) = some (HamiltonianTerm.timeDependent (toUpperCase Ch)
          v opsB.reverse)
      rw [hTEr]
    · rw [hflat2, hOps2]
      show (match TryEvaluateExpression (('(' :: sgn :: ("1.0)*").toList) ++ r) vars with
        | none => none
        | some v => some (HamiltonianTerm.timeDependent (toUpperCase Ch) v
            opsB.reverse))
        = some (HamiltonianTerm.timeDependent (toUpperCase Ch)
            ((if sgn = '-' then -1 else 1) * v) opsB.reverse)
      rw [TryEval_signed vars hT sgn hsgn]

theorem parseAtom_half :
    parseAtom [] (("0.5").toList) = some (1/2, []) := by
  have hnum : parseNumber (("0.5").toList) = some (1/2, []) := by
    show some ((stoiNat ['0'] : ℚ)
        + (stoiNat ['5'] : ℚ) / ((10 : ℚ) ^ (['5'] : List Char).length),
        ([] : List Char)) = some (1/2, [])
    norm_num [stoiNat, show ('0'.toNat - 48 : ℕ) = 0 from by decide,
      show ('5'.toNat - 48 : ℕ) = 5 from by decide]
  show (match parseNumber (("0.5").toList) with
    | some res => some res
    | none =>
        match parseIdentName (("0.5").toList) with
        | none => none
        | some (name, rest) =>
            match ([] : VarsMap).lookup name with
            | none => none
            | some v => some (v, rest)) = some (1/2, [])
  rw [hnum]

/-- Witness for C4: the scenario-D input `0.5*(X0-Y0)||D1` splits into the
parses of `0.5*X0||D1` and `(-1.0)*0.5*Y0||D1`, and the second child carries
coefficient `-0.5` — the negation of the `0.5` carried by `0.5*Y0||D1`. -/
theorem C4_distribution_witness :
    goodChannel (("D1").toList)
    ∧ (timeDepParse (("0.5*(X0-Y0)||D1").toList) []
        = match timeDepParse (("0.5*X0||D1").toList) [],
                timeDepParse (("(-1.0)*0.5*Y0||D1").toList) [] with
          | some t1, some t2 => some (HamiltonianTerm.sum [t1, t2])
          | _, _ => none)
    ∧ timeDepParse (("0.5*Y0||D1").toList) []
        = some (HamiltonianTerm.timeDependent (("D1").toList) ((1 : ℚ)/2)
            [(Operator.Y, 0)])
    ∧ timeDepParse (("(-1.0)*0.5*Y0||D1").toList) []
        = some (HamiltonianTerm.timeDependent (("D1").toList) (-((1 : ℚ)/2))
            [(Operator.Y, 0)]) := by
  have hch : goodChannel (("D1").toList) :=
    ⟨'D', ['1'], rfl, Or.inl rfl, by decide, by decide⟩
  have hT05 : parseT [] (4 * (("0.5").toList).length + 7) (("0.5").toList)
      = some (1/2, []) := by
    show (match parseAtom [] (("0.5").toList) with
      | none => none
      | some (v0, r0) => parseTRest [] 18 v0 r0) = some (1/2, [])
    rw [parseAtom_half]
    rfl
  have h := C4_distribution [] (("0.5*").toList) (("X0").toList)
    (("Y0").toList) (("D1").toList) '-' (Or.inr rfl)
    (by decide) (by decide) (by decide) (by decide) (by decide) (by decide)
    (by decide) (by decide) (by decide)
    (fun _ => ⟨by decide, by decide⟩)
    (by decide) (by decide) hch
  obtain ⟨h1, _, h3⟩ := h
  have h3' := h3 [(Operator.Y, 0)] (("0.5").toList) (1/2)
    (by decide) hT05 (by decide)
  have h31 := h3'.1
  have h32 := h3'.2
  norm_num at h32
  exact ⟨hch, h1, h31, h32⟩

/-! ## Lemmas about the stabilization folds -/

theorem matAddValue_apply (M : CMat) (r c : ℕ) (v : ℂ) (i j : ℕ) :
    matAddValue M r c v i j = if i = r ∧ j = c then M i j + v else M i j := rfl

theorem stab_fold_apply (D : ℕ) (v : ℂ) (M : CMat) (r c : ℕ) :
    ∀ n, ((List.range n).foldl (fun A i => matAddValue A 0 (i * (D + 1)) v) M) r c
      = M r c + (if r = 0 ∧ ∃ i, i < n ∧ c = i * (D + 1) then v else 0) := by
  intro n
  induction n with
  | zero => simp
  | succ n ih =>
      rw [List.range_succ, List.foldl_append]
      simp only [List.foldl_cons, List.foldl_nil, matAddValue_apply, ih]
      by_cases hr : r = 0
      · subst hr
        by_cases hc : c = n * (D + 1)
        · subst hc
          have hnot : ¬ ∃ i, i < n ∧ n * (D + 1) = i * (D + 1) := by
            rintro ⟨i, hi, hEq⟩
            have : n = i := Nat.eq_of_mul_eq_mul_right (Nat.succ_pos D) hEq
            omega
          have hyes : ∃ i, i < n + 1 ∧ n * (D + 1) = i * (D + 1) := ⟨n, by omega, rfl⟩
          simp [hnot, hyes]
        · have : (∃ i, i < n + 1 ∧ c = i * (D + 1)) ↔ (∃ i, i < n ∧ c = i * (D + 1)) := by
            constructor
            · rintro ⟨i, hi, hEq⟩
              refine ⟨i, ?_, hEq⟩
              rcases Nat.lt_succ_iff_lt_or_eq.mp hi with h | h
              · exact h
              · subst h; exact absurd hEq hc
            · rintro ⟨i, hi, hEq⟩; exact ⟨i, by omega, hEq⟩
          simp [this, hc]
      · simp [hr]

theorem addStabRow_apply (D : ℕ) (v : ℂ) (M : CMat) (r c : ℕ) :
    addStabRow D v M r c
      = M r c + (if r = 0 ∧ ∃ i, i < D ∧ c = i * (D + 1) then v else 0) :=
  stab_fold_apply D v M r c D

theorem addZeroDiag_apply (n : ℕ) (M : CMat) (r c : ℕ) :
    addZeroDiag n M r c = M r c := by
  unfold addZeroDiag
  induction n with
  | zero => simp
  | succ n ih =>
      rw [List.range_succ, List.foldl_append]
      simp only [List.foldl_cons, List.foldl_nil, matAddValue_apply]
      split <;> simp [ih]

/-! ## Claim C9: the stiff solver is rejected with Lindblad terms and with
time-dependent terms -/

/-- C9: `time_step` aborts (models `exit(0)` as `none`) on every call where
the stiff solver is selected together with Lindblad terms, and on every call
where the stiff solver is selected together with time-dependent terms. -/
theorem C9_stiff_rejected (fl : TimeStepFlags) (D : ℕ) (s : SolverGlobals)
    (hstiff : fl.stiff = true) :
    (fl.lindblad = true → time_step_model fl D s = none)
    ∧ (fl.num_time_dep ≠ 0 → time_step_model fl D s = none) := by
  constructor
  · intro hl
    simp [time_step_model, hl, hstiff]
  · intro ht
    cases hl : fl.lindblad
    · simp [time_step_model, hl, hstiff, ht]
    · simp [time_step_model, hl, hstiff]

/-- Witness for C9 at concrete flags. -/
theorem C9_stiff_rejected_witness :
    time_step_model ⟨true, true, 0, 0⟩ 2 ⟨zeroCMat, false⟩ = none
    ∧ time_step_model ⟨false, true, 1, 0⟩ 2 ⟨zeroCMat, false⟩ = none :=
  ⟨(C9_stiff_rejected ⟨true, true, 0, 0⟩ 2 ⟨zeroCMat, false⟩ rfl).1 rfl,
   (C9_stiff_rejected ⟨false, true, 1, 0⟩ 2 ⟨zeroCMat, false⟩ rfl).2 (by decide)⟩

/-! ## Claim C5: the stabilization flag is never cleared -/

/-- C5 (code bug evaluation): after `steady_state` on a zero `full_A` with
`D = 2`, the first `time_step` restores the entry `full_A[0][0]` to `0` but
leaves `stab_added` set, so a second `time_step` subtracts the stabilization
values again and drives `full_A[0][0]` to `-1`: the removal does not happen
exactly once, contradicting the claim. -/
theorem C5_flag_never_cleared :
    ((time_step_model lbFlags 2 (steady_state_model 2 ⟨zeroCMat, false⟩).1).map
        (fun p => (p.1.full_A 0 0, p.1.stab_added)) = some (0, true))
    ∧ (((time_step_model lbFlags 2 (steady_state_model 2 ⟨zeroCMat, false⟩).1).bind
        (fun p => time_step_model lbFlags 2 p.1)).map
          (fun q => q.1.full_A 0 0) = some (-1)) := by
  have h0 : (steady_state_model 2 ⟨zeroCMat, false⟩).1.full_A 0 0 = 1 := by
    simp [steady_state_model, addZeroDiag_apply, addStabRow_apply, zeroCMat]
  have hflag : (steady_state_model 2 ⟨zeroCMat, false⟩).1.stab_added = true := rfl
  have hex : (0 = 0 ∧ ∃ i, i < 2 ∧ 0 = i * (2 + 1)) := ⟨rfl, 0, by omega, rfl⟩
  constructor
  · simp only [time_step_model, lbFlags, hflag, if_true, Option.map_some]
    simp [addZeroDiag_apply, addStabRow_apply, h0, hex]
  · simp only [time_step_model, lbFlags, hflag, if_true, Option.bind_some,
      Option.map_some]
    simp [addZeroDiag_apply, addStabRow_apply, h0, hex]

/-! ## Claim C6: the steady-state stabilization row, right-hand side and
solver configuration -/

/-- C6: on a state without stabilization, `steady_state` adds `+1.0` at row 0
of `full_A` at every column `i*(D+1)` with `i < D` and nowhere else, builds
the right-hand side `b` as zero everywhere except `b[0] = 1`, and configures
GMRES with restart 100, an additive Schwarz preconditioner and relative
tolerance `1e-11`. -/
theorem C6_steady_state_setup (D : ℕ) (s : SolverGlobals)
    (h : s.stab_added = false) :
    (∀ r c, (steady_state_model D s).1.full_A r c
        = s.full_A r c + (if r = 0 ∧ ∃ i, i < D ∧ c = i * (D + 1) then 1 else 0))
    ∧ (∀ k, (steady_state_model D s).2.1 k = if k = 0 then 1 else 0)
    ∧ (steady_state_model D s).2.2 = ⟨1 / 10 ^ 11, 100, .gmres, .asm⟩ := by
  refine ⟨fun r c => ?_, fun k => ?_, rfl⟩
  · simp [steady_state_model, h, addZeroDiag_apply, addStabRow_apply]
  · rfl

/-- Witness for C6 at `D = 2` on the zero matrix. -/
theorem C6_steady_state_setup_witness :
    (steady_state_model 2 ⟨zeroCMat, false⟩).1.full_A 0 3 = zeroCMat 0 3 + 1
    ∧ (steady_state_model 2 ⟨zeroCMat, false⟩).1.full_A 1 1 = zeroCMat 1 1
    ∧ (steady_state_model 2 ⟨zeroCMat, false⟩).2.1 0 = 1
    ∧ (steady_state_model 2 ⟨zeroCMat, false⟩).2.1 5 = 0
    ∧ (steady_state_model 2 ⟨zeroCMat, false⟩).2.2
        = ⟨1 / 10 ^ 11, 100, .gmres, .asm⟩ := by
  obtain ⟨h1, h2, h3⟩ := C6_steady_state_setup 2 ⟨zeroCMat, false⟩ rfl
  refine ⟨?_, ?_, ?_, ?_, h3⟩
  · have := h1 0 3
    have hex : (0 = 0 ∧ ∃ i, i < 2 ∧ 3 = i * (2 + 1)) := ⟨rfl, 1, by omega, rfl⟩
    simpa [hex] using this
  · have := h1 1 1
    simpa using this
  · simpa using h2 0
  · simpa using h2 5

/-! ## Claim C2: the normalization event -/

theorem l2norm_eq_zero_iff {n : ℕ} (U : Fin n → ℂ) : l2norm U = 0 ↔ U = 0 := by
  unfold l2norm
  rw [Real.sqrt_eq_zero (Finset.sum_nonneg fun i _ => Complex.normSq_nonneg _)]
  constructor
  · intro h
    funext i
    have := (Finset.sum_eq_zero_iff_of_nonneg
      (fun i _ => Complex.normSq_nonneg (U i))).mp h i (Finset.mem_univ i)
    exact Complex.normSq_eq_zero.mp this
  · intro h
    subst h
    simp

/-- C2: the normalization trigger returns `fvalue = 0` for every time and
state (the mechanism by which the event fires at every accepted step); the
post-event action L2-normalizes a nonzero state, yielding the scaled vector of
unit Euclidean norm that is re-seated into the solver; and the event (with
direction 0 and no termination) is registered whenever Lindblad terms are
present and `time_step` proceeds. -/
theorem C2_normalize_event :
    (∀ t U, Normalize_EventFunction t U = 0)
    ∧ (∀ (n : ℕ) (U : Fin n → ℂ), U ≠ 0 →
        Normalize_PostEventFunction U = (fun i => U i / (l2norm U : ℂ))
        ∧ l2norm (Normalize_PostEventFunction U) = 1)
    ∧ (∀ fl D s res, fl.lindblad = true → time_step_model fl D s = some res →
        RegisteredEvent.normalizeEvent 0 false ∈ res.2) := by
  refine ⟨fun _ _ => rfl, fun n U hU => ?_, fun fl D s res hl hres => ?_⟩
  · have hnz : l2norm U ≠ 0 := fun h => hU ((l2norm_eq_zero_iff U).mp h)
    have hpos : 0 < l2norm U :=
      lt_of_le_of_ne (Real.sqrt_nonneg _) (Ne.symm hnz)
    have hpost : Normalize_PostEventFunction U = (fun i => U i / (l2norm U : ℂ)) := by
      unfold Normalize_PostEventFunction
      simp [hnz]
    refine ⟨hpost, ?_⟩
    rw [hpost]
    have hS : (0 : ℝ) ≤ ∑ i, Complex.normSq (U i) :=
      Finset.sum_nonneg fun i _ => Complex.normSq_nonneg _
    have hSne : (∑ i, Complex.normSq (U i)) ≠ 0 := by
      intro h
      exact hnz (by simp [l2norm, h])
    simp only [l2norm, Complex.normSq_div, Complex.normSq_ofReal]
    rw [← Finset.sum_div, Real.mul_self_sqrt hS, div_self hSne, Real.sqrt_one]
  · cases hstiff : fl.stiff
    · simp only [time_step_model, hl, hstiff, if_true, if_false,
        Bool.false_eq_true] at hres
      obtain rfl : res = _ := (Option.some.injEq _ _).mp hres.symm
      simp
    · simp [time_step_model, hl, hstiff] at hres

/-- Witness for C2 at a one-dimensional state and concrete flags. -/
theorem C2_normalize_event_witness :
    Normalize_EventFunction 1 (fun _ => 3) = 0
    ∧ l2norm (Normalize_PostEventFunction (fun _ : Fin 1 => (2 : ℂ))) = 1
    ∧ RegisteredEvent.normalizeEvent 0 false ∈
        (⟨⟨addZeroDiag 4 zeroCMat, false⟩, [RegisteredEvent.normalizeEvent 0 false]⟩ :
          SolverGlobals × List RegisteredEvent).2 := by
  obtain ⟨h1, h2, h3⟩ := C2_normalize_event
  refine ⟨h1 1 _, (h2 1 _ ?_).2, ?_⟩
  · intro h
    have := congrFun h 0
    norm_num at this
  · exact h3 lbFlags 2 ⟨zeroCMat, false⟩ _ rfl rfl

/-! ## Claim C1: the RHS callback ignores the Schroedinger branch -/

/-- C1 (code bug evaluation): with one qubit (`total_levels = 2`), one
time-dependent X term with unit drive, and zero static matrices, the callback
`_RHS_time_dep_ham` produces the entry `BB[0][2] = i` (the Liouville
contribution `+i*f(t)*(X kron I)`), while the claimed Schroedinger-mode
rebuild (copy `ham_A`, add only `-i*f(t)*X`) leaves that entry `0`: the
callback always copies `full_A` and always adds both Liouville kron terms,
regardless of mode. -/
theorem C1_rhs_callback_bug :
    RHS_time_dep_ham zeroCMat 2 [tdX] 0 0 2 = Complex.I
    ∧ RHS_claimed false zeroCMat zeroCMat 2 [tdX] 0 0 2 = 0
    ∧ RHS_claimed true zeroCMat zeroCMat 2 [tdX] 0 0 2
        = RHS_time_dep_ham zeroCMat 2 [tdX] 0 0 2 := by
  refine ⟨?_, ?_, rfl⟩
  · simp [RHS_time_dep_ham, tdX, opX0, add_to_PETSc_kron, kron, idm, sigmaX,
      zeroCMat]
  · simp [RHS_claimed, tdX, opX0, add_to_PETSc_kron, kron, idm, sigmaX,
      zeroCMat]

/-! ## Claim C7: partial consumption before a parse failure -/

/-- C7 (counterexample): for the `h_str` array `["1.0*X0", "junk"]` the
JSON-level parse returns failure, but the first term has already been handed
to the per-term consumer — the handed list is not empty, contradicting the
claim that no term from the input reaches the consumer. -/
theorem C7_counterexample :
    (tryParseJson [("1.0*X0").toList, ("junk").toList] []).1 = false
    ∧ (tryParseJson [("1.0*X0").toList, ("junk").toList] []).2 ≠ [] := by
  constructor
  · rfl
  · cases hx : tryParseString (("1.0*X0").toList) [] with
    | none =>
        have hs : (tryParseString (("1.0*X0").toList) []).isSome = true := by decide
        rw [hx] at hs
        simp at hs
    | some t =>
        simp only [tryParseJson, hx]
        simp

/-- C7 (amended): when some entry of the `h_str` array fails to parse, the
JSON-level parse returns failure immediately at the first failing entry; the
entries before it have already been handed to the consumer (in order), and no
entry from the failing one onward is handed over. -/
theorem C7_fail_fast (pre : List (List Char)) (bad : List Char)
    (post : List (List Char)) (vars : VarsMap)
    (hpre : ∀ h ∈ pre, (tryParseString h vars).isSome)
    (hbad : tryParseString bad vars = none) :
    tryParseJson (pre ++ bad :: post) vars
      = (false, pre.filterMap (fun h => tryParseString h vars)) := by
  induction pre with
  | nil => simp [tryParseJson, hbad]
  | cons h t ih =>
      obtain ⟨x, hx⟩ := Option.isSome_iff_exists.mp (hpre h (by simp))
      have ht := ih (fun g hg => hpre g (by simp [hg]))
      simp [tryParseJson, hx, ht, List.filterMap_cons]

/-- Witness for the amended C7 at a concrete two-entry array. -/
theorem C7_fail_fast_witness :
    tryParseJson [("1.0*X0").toList, ("junk").toList] []
      = (false, [("1.0*X0").toList].filterMap (fun h => tryParseString h [])) := by
  have := C7_fail_fast [("1.0*X0").toList] (("junk").toList) [] []
    (by intro h hh; simp at hh; subst hh; decide) rfl
  simpa using this

end QuaCV
